import Mathlib

/-!
# Privacy vault: anonymize / deanonymize engine of `server.js`

A shallow embedding of the tokenization core of `src/server.js`:

* the regular expressions of `PII_PATTERNS` and of `tokenPattern`, run by a
  backtracking matcher with the priority order of ECMAScript (greedy
  quantifiers, leftmost match);
* `String.prototype.replace` / `String.prototype.match` for a global regular
  expression, and `String.prototype.replace` for a string pattern;
* `generateToken` (MD5, hex, first twelve characters);
* the Mongo collection behind `tokenCollection` as a list of documents with
  `updateOne` (upsert) and `findOne`;
* `anonymizeMessage` and `deanonymizeMessage`.

A JavaScript string is modelled by the list of its characters.  None of the
character classes used by the program contains a surrogate code unit, so a
character outside the basic plane (two code units in JavaScript, neither of
them in any class) behaves like one character that is in no class.
-/

namespace PrivacyVault

/-- A JavaScript string, as the list of its characters. -/
abbrev JSString := List Char

/-! ## Character classes -/

/-- The class `[A-Z]`. -/
def isAsciiUpper (c : Char) : Bool := 65 ≤ c.toNat && c.toNat ≤ 90

/-- The class `[a-z]`. -/
def isAsciiLower (c : Char) : Bool := 97 ≤ c.toNat && c.toNat ≤ 122

/-- The class `\d`, that is `[0-9]`. -/
def isDigit (c : Char) : Bool := 48 ≤ c.toNat && c.toNat ≤ 57

/-- The class `\w`, that is `[A-Za-z0-9_]`; `\b` is defined from it. -/
def isWordChar (c : Char) : Bool :=
  isAsciiUpper c || isAsciiLower c || isDigit c || c.toNat == 95

/-- The class `[A-ZÁ-Ú]`: `A`..`Z` or U+00C1..U+00DA. -/
def isNameUpper (c : Char) : Bool :=
  isAsciiUpper c || (193 ≤ c.toNat && c.toNat ≤ 218)

/-- The class `[a-zá-ú]`: `a`..`z` or U+00E1..U+00FA. -/
def isNameLower (c : Char) : Bool :=
  isAsciiLower c || (225 ≤ c.toNat && c.toNat ≤ 250)

/-- The class `\s` of ECMAScript: white space and line terminators. -/
def isSpace (c : Char) : Bool :=
  (9 ≤ c.toNat && c.toNat ≤ 13) || c.toNat == 32 || c.toNat == 160 ||
  c.toNat == 5760 || (8192 ≤ c.toNat && c.toNat ≤ 8202) || c.toNat == 8232 ||
  c.toNat == 8233 || c.toNat == 8239 || c.toNat == 8287 || c.toNat == 12288 ||
  c.toNat == 65279

/-- The class `[a-zA-Z]`. -/
def isAsciiLetter (c : Char) : Bool := isAsciiUpper c || isAsciiLower c

/-- The class `[a-zA-Z0-9._%+-]` (local part of an e-mail address). -/
def isEmailLocal (c : Char) : Bool :=
  isAsciiLetter c || isDigit c || c.toNat == 46 || c.toNat == 95 ||
  c.toNat == 37 || c.toNat == 43 || c.toNat == 45

/-- The class `[a-zA-Z0-9.-]` (domain of an e-mail address). -/
def isEmailDomain (c : Char) : Bool :=
  isAsciiLetter c || isDigit c || c.toNat == 46 || c.toNat == 45

/-- The class `[a-f0-9]`. -/
def isHexLower (c : Char) : Bool :=
  (97 ≤ c.toNat && c.toNat ≤ 102) || isDigit c

/-! ## Regular expressions -/

/-- The fragment of ECMAScript regular expressions used by `server.js`
(groups are non-capturing or their capture is not used). -/
inductive RegExp where
  /-- One character of a class, also a literal character. -/
  | cls (p : Char → Bool)
  /-- Concatenation. -/
  | seq (r₁ r₂ : RegExp)
  /-- The quantifier `{n}`. -/
  | exactly (n : Nat) (r : RegExp)
  /-- The greedy quantifier `{n,}`; `+` is `{1,}`. -/
  | atLeast (n : Nat) (r : RegExp)
  /-- The assertion `\b`. -/
  | wordBoundary

/-- A literal character. -/
def RegExp.chr (c : Char) : RegExp := RegExp.cls (fun x => x == c)

/-- The greedy quantifier `+`. -/
def RegExp.plus (r : RegExp) : RegExp := RegExp.atLeast 1 r

/-- A position of the matcher: whether the character before it is a word
character (`false` at the start of the string), and the text that is left. -/
abbrev Cursor := Bool × JSString

/-- Whether the character at the cursor is a word character (`false` at the
end of the string). -/
def nextIsWord : JSString → Bool
  | [] => false
  | c :: _ => isWordChar c

/-- The body of a quantifier `n` times: every way to do so, in priority
order. -/
def repeatN (body : Cursor → List Cursor) : Nat → Cursor → List Cursor
  | 0, p => [p]
  | n + 1, p => (body p).flatMap (repeatN body n)

/-- The greedy, unbounded part of a quantifier: one more iteration that
consumed something, and then again, before stopping here.  The first
argument bounds the iterations by the length of the text left, which no run
can exceed. -/
def starLoop (body : Cursor → List Cursor) : Nat → Cursor → List Cursor
  | 0, p => [p]
  | fuel + 1, p =>
    ((body p).filter (fun q => decide (q.2.length < p.2.length))).flatMap
      (starLoop body fuel) ++ [p]

/-- Every way the expression matches at a cursor, as the cursors after the
match, in the order a backtracking matcher tries them: the head is the match
ECMAScript reports. -/
def RegExp.run : RegExp → Cursor → List Cursor
  | .cls _, (_, []) => []
  | .cls p, (_, c :: cs) => if p c then [(isWordChar c, cs)] else []
  | .seq r₁ r₂, p => (r₁.run p).flatMap (fun q => r₂.run q)
  | .exactly n r, p => repeatN (fun q => r.run q) n p
  | .atLeast n r, p =>
    (repeatN (fun q => r.run q) n p).flatMap
      (fun q => starLoop (fun q' => r.run q') q.2.length q)
  | .wordBoundary, (w, s) => if w != nextIsWord s then [(w, s)] else []

/-- The match at a position: `RegExp.prototype.exec` anchored at the cursor.
Returns the matched text and the text after it. -/
def RegExp.exec (r : RegExp) (prevWord : Bool) (s : JSString) :
    Option (JSString × JSString) :=
  match r.run (prevWord, s) with
  | [] => none
  | q :: _ => some (s.take (s.length - q.2.length), q.2)

/-- Pattern `PII_PATTERNS.name`:
`/[A-ZÁ-Ú][a-zá-ú]+(?:\s+[A-ZÁ-Ú][a-zá-ú]+)+/g`. -/
def namePattern : RegExp :=
  .seq (.cls isNameUpper) (.seq (.plus (.cls isNameLower))
    (.plus (.seq (.plus (.cls isSpace))
      (.seq (.cls isNameUpper) (.plus (.cls isNameLower))))))

/-- Pattern `PII_PATTERNS.email`:
`/[a-zA-Z0-9._%+-]+@[a-zA-Z0-9.-]+\.[a-zA-Z]{2,}/g`. -/
def emailPattern : RegExp :=
  .seq (.plus (.cls isEmailLocal)) (.seq (.chr '@')
    (.seq (.plus (.cls isEmailDomain)) (.seq (.chr '.')
      (.atLeast 2 (.cls isAsciiLetter)))))

/-- Pattern `PII_PATTERNS.phone`: `/\b\d{10}\b/g`. -/
def phonePattern : RegExp :=
  .seq .wordBoundary (.seq (.exactly 10 (.cls isDigit)) .wordBoundary)

/-- Pattern `tokenPattern` of `deanonymizeMessage`:
`/([A-Z]+_[a-f0-9]{12})/g`. -/
def tokenPattern : RegExp :=
  .seq (.plus (.cls isAsciiUpper)) (.seq (.chr '_')
    (.exactly 12 (.cls isHexLower)))

/-- The registry `PII_PATTERNS`, in the order of `Object.entries`. -/
def PII_PATTERNS : List (JSString × RegExp) :=
  [("name".toList, namePattern), ("email".toList, emailPattern),
   ("phone".toList, phonePattern)]

/-! ## Values, promises -/

/-- The values handled here: a string, or the promise an `async` function
returns, with what it settles to (fulfilled with a string or rejected with
an error message). -/
inductive JSValue where
  | str (s : JSString)
  | promise (settled : Except JSString JSString)

/-- The abstract operation `ToString`: a promise is an ordinary object and
converts to `"[object Promise]"`. -/
def JSValue.toJSString : JSValue → JSString
  | .str s => s
  | .promise _ => "[object Promise]".toList

/-- The operator `await`: a value that is not a promise is returned as it
is; a promise gives what it settles to, a rejection being thrown. -/
def awaitValue : JSValue → Except JSString JSString
  | .str s => .ok s
  | .promise settled => settled

/-! ## `String.prototype.replace` and `String.prototype.match` -/

/-- `s.replace(r, callback)` for a global regular expression `r` and a
function `callback`, from the position reached: `skip` counts the characters
of the current match that are still to be passed over.  The callback runs
once per match, left to right, with the matched text; its side effects are
threaded through `σ`; its result is converted by `ToString` and inserted.
An empty match inserts the replacement and moves on by one character. -/
def replaceFrom {σ : Type} (r : RegExp) (callback : JSString → σ → JSValue × σ) :
    Nat → Bool → JSString → σ → JSString × σ
  | _, w, [], st =>
    match r.exec w [] with
    | some _ => ((callback [] st).1.toJSString, (callback [] st).2)
    | none => ([], st)
  | skip + 1, _, c :: cs, st => replaceFrom r callback skip (isWordChar c) cs st
  | 0, w, c :: cs, st =>
    match r.exec w (c :: cs) with
    | none =>
      let rest := replaceFrom r callback 0 (isWordChar c) cs st
      (c :: rest.1, rest.2)
    | some ([], _) =>
      let out := callback [] st
      let rest := replaceFrom r callback 0 (isWordChar c) cs out.2
      (out.1.toJSString ++ c :: rest.1, rest.2)
    | some (m, _) =>
      let out := callback m st
      let rest := replaceFrom r callback (m.length - 1) (isWordChar c) cs out.2
      (out.1.toJSString ++ rest.1, rest.2)

/-- `s.replace(r, callback)` for a global regular expression. -/
def jsReplaceFn {σ : Type} (r : RegExp) (callback : JSString → σ → JSValue × σ)
    (s : JSString) (st : σ) : JSString × σ :=
  replaceFrom r callback 0 false s st

/-- `s.match(r)` for a global regular expression, from the position
reached: the matched texts, left to right. -/
def matchFrom (r : RegExp) : Nat → Bool → JSString → List JSString
  | _, w, [] =>
    match r.exec w [] with
    | some _ => [[]]
    | none => []
  | skip + 1, _, c :: cs => matchFrom r skip (isWordChar c) cs
  | 0, w, c :: cs =>
    match r.exec w (c :: cs) with
    | none => matchFrom r 0 (isWordChar c) cs
    | some ([], _) => [] :: matchFrom r 0 (isWordChar c) cs
    | some (m, _) => m :: matchFrom r (m.length - 1) (isWordChar c) cs

/-- `s.match(r) || []` for a global regular expression. -/
def jsMatchAll (r : RegExp) (s : JSString) : List JSString :=
  matchFrom r 0 false s

/-- The first occurrence of `pat` in `s`: the text before it and the text
after it (`s.indexOf(pat)`). -/
def splitFirst (pat : JSString) : JSString → Option (JSString × JSString)
  | [] => if pat = [] then some ([], []) else none
  | c :: cs =>
    if pat.isPrefixOf (c :: cs) then some ([], (c :: cs).drop pat.length)
    else (splitFirst pat cs).map (fun ba => (c :: ba.1, ba.2))

/-- The abstract operation `GetSubstitution` for a string pattern (no
captures): `$$` is a dollar, `$&` the matched text, `$` followed by a
backtick the text before the match, `$` followed by an apostrophe the text
after it; every other character stands for itself. -/
def getSubstitution (matched before after : JSString) : JSString → JSString
  | [] => []
  | [c] => [c]
  | c :: d :: t =>
    if c = '$' then
      if d = '$' then '$' :: getSubstitution matched before after t
      else if d = '&' then matched ++ getSubstitution matched before after t
      else if d = Char.ofNat 96 then before ++ getSubstitution matched before after t
      else if d = Char.ofNat 39 then after ++ getSubstitution matched before after t
      else c :: getSubstitution matched before after (d :: t)
    else c :: getSubstitution matched before after (d :: t)

/-- `s.replace(pat, replacement)` for a string pattern: the first occurrence
only. -/
def jsReplaceStr (s pat replacement : JSString) : JSString :=
  match splitFirst pat s with
  | none => s
  | some (before, after) =>
    before ++ getSubstitution pat before after replacement ++ after

/-- `s.toUpperCase()`; the program applies it to the keys of `PII_PATTERNS`
only, which are ASCII. -/
def toUpperCase (s : JSString) : JSString := s.map Char.toUpper

/-! ## `generateToken`: MD5 (RFC 1321) over the UTF-8 bytes, in hexadecimal -/

/-- A 32-bit word. -/
def word32 (n : Nat) : Nat := n % 4294967296

/-- Bitwise complement of a 32-bit word. -/
def not32 (x : Nat) : Nat := 4294967295 - word32 x

/-- Rotation to the left of a 32-bit word. -/
def rotl32 (x c : Nat) : Nat := word32 (x <<< c) ||| (word32 x >>> (32 - c))

/-- The per-round shift amounts of MD5. -/
def md5Shift : List Nat :=
  [7, 12, 17, 22, 7, 12, 17, 22, 7, 12, 17, 22, 7, 12, 17, 22,
   5, 9, 14, 20, 5, 9, 14, 20, 5, 9, 14, 20, 5, 9, 14, 20,
   4, 11, 16, 23, 4, 11, 16, 23, 4, 11, 16, 23, 4, 11, 16, 23,
   6, 10, 15, 21, 6, 10, 15, 21, 6, 10, 15, 21, 6, 10, 15, 21]

/-- The constants of MD5: the integer part of `2^32 * |sin (i + 1)|`. -/
def md5K : List Nat :=
  [0xd76aa478, 0xe8c7b756, 0x242070db, 0xc1bdceee,
   0xf57c0faf, 0x4787c62a, 0xa8304613, 0xfd469501,
   0x698098d8, 0x8b44f7af, 0xffff5bb1, 0x895cd7be,
   0x6b901122, 0xfd987193, 0xa679438e, 0x49b40821,
   0xf61e2562, 0xc040b340, 0x265e5a51, 0xe9b6c7aa,
   0xd62f105d, 0x02441453, 0xd8a1e681, 0xe7d3fbc8,
   0x21e1cde6, 0xc33707d6, 0xf4d50d87, 0x455a14ed,
   0xa9e3e905, 0xfcefa3f8, 0x676f02d9, 0x8d2a4c8a,
   0xfffa3942, 0x8771f681, 0x6d9d6122, 0xfde5380c,
   0xa4beea44, 0x4bdecfa9, 0xf6bb4b60, 0xbebfbc70,
   0x289b7ec6, 0xeaa127fa, 0xd4ef3085, 0x04881d05,
   0xd9d4d039, 0xe6db99e5, 0x1fa27cf8, 0xc4ac5665,
   0xf4292244, 0x432aff97, 0xab9423a7, 0xfc93a039,
   0x655b59c3, 0x8f0ccc92, 0xffeff47d, 0x85845dd1,
   0x6fa87e4f, 0xfe2ce6e0, 0xa3014314, 0x4e0811a1,
   0xf7537e82, 0xbd3af235, 0x2ad7d2bb, 0xeb86d391]

/-- The four chaining words of MD5. -/
structure MD5State where
  a : Nat
  b : Nat
  c : Nat
  d : Nat

/-- The initial chaining value. -/
def md5Init : MD5State := ⟨0x67452301, 0xefcdab89, 0x98badcfe, 0x10325476⟩

/-- Operation `i` (0..63) of the compression function on a block of sixteen
words. -/
def md5Step (block : List Nat) (st : MD5State) (i : Nat) : MD5State :=
  let f :=
    if i < 16 then (st.b &&& st.c) ||| (not32 st.b &&& st.d)
    else if i < 32 then (st.d &&& st.b) ||| (not32 st.d &&& st.c)
    else if i < 48 then st.b ^^^ st.c ^^^ st.d
    else st.c ^^^ (st.b ||| not32 st.d)
  let g :=
    if i < 16 then i
    else if i < 32 then (5 * i + 1) % 16
    else if i < 48 then (3 * i + 5) % 16
    else (7 * i) % 16
  let x := word32 (f + st.a + md5K.getD i 0 + block.getD g 0)
  ⟨st.d, word32 (st.b + rotl32 x (md5Shift.getD i 0)), st.b, st.c⟩

/-- The compression function on one block. -/
def md5Block (st : MD5State) (block : List Nat) : MD5State :=
  let r := (List.range 64).foldl (md5Step block) st
  ⟨word32 (st.a + r.a), word32 (st.b + r.b), word32 (st.c + r.c), word32 (st.d + r.d)⟩

/-- The UTF-8 encoding of a character, which is what `update(input)` hashes. -/
def utf8Bytes (c : Char) : List Nat :=
  if c.toNat < 128 then [c.toNat]
  else if c.toNat < 2048 then [192 + c.toNat / 64, 128 + c.toNat % 64]
  else if c.toNat < 65536 then
    [224 + c.toNat / 4096, 128 + c.toNat / 64 % 64, 128 + c.toNat % 64]
  else
    [240 + c.toNat / 262144, 128 + c.toNat / 4096 % 64, 128 + c.toNat / 64 % 64,
     128 + c.toNat % 64]

/-- A word as four bytes, least significant first. -/
def wordBytes (w : Nat) : List Nat :=
  [w % 256, w / 256 % 256, w / 65536 % 256, w / 16777216 % 256]

/-- The message padded to a multiple of 64 bytes: a bit 1, zeros, and the
length in bits on eight bytes. -/
def md5Pad (bytes : List Nat) : List Nat :=
  bytes ++ [128] ++ List.replicate ((119 - bytes.length % 64) % 64) 0 ++
    wordBytes (word32 (8 * bytes.length)) ++ wordBytes (word32 (8 * bytes.length / 4294967296))

/-- Bytes to little-endian words, four by four. -/
def toWords : List Nat → List Nat
  | b₀ :: b₁ :: b₂ :: b₃ :: rest =>
    (b₀ + 256 * b₁ + 65536 * b₂ + 16777216 * b₃) :: toWords rest
  | _ => []

/-- The compression function over `n` successive blocks of sixteen words. -/
def md5Blocks : Nat → List Nat → MD5State → MD5State
  | 0, _, st => st
  | n + 1, ws, st => md5Blocks n (ws.drop 16) (md5Block st (ws.take 16))

/-- The MD5 chaining value of a string. -/
def md5 (input : JSString) : MD5State :=
  let ws := toWords (md5Pad (input.flatMap utf8Bytes))
  md5Blocks (ws.length / 16) ws md5Init

/-- A hexadecimal digit, lower case. -/
def hexDigit (n : Nat) : Char :=
  Char.ofNat (if n % 16 < 10 then 48 + n % 16 else 87 + n % 16)

/-- A byte as two hexadecimal digits. -/
def byteHex (b : Nat) : JSString := [hexDigit (b / 16), hexDigit b]

/-- `crypto.createHash('md5').update(input).digest('hex')`. -/
def md5Hex (input : JSString) : JSString :=
  (wordBytes (md5 input).a ++ wordBytes (md5 input).b ++ wordBytes (md5 input).c ++
    wordBytes (md5 input).d).flatMap byteHex

/-- Function `generateToken(type, input)`. -/
def generateToken (type input : JSString) : JSString :=
  type ++ '_' :: (md5Hex input).take 12

/-! ## The token collection -/

/-- A document of the collection `tokens`. -/
structure Doc where
  token : JSString
  originalValue : JSString
deriving DecidableEq, Repr

/-- The Mongo collection behind `tokenCollection`: its documents in natural
order, and whether the store answers (when it does not, the promise of every
operation rejects). -/
structure Collection where
  docs : List Doc
  reachable : Bool
deriving DecidableEq, Repr

/-- The error a store operation rejects with when the store does not
answer. -/
def storeUnavailable : JSString := "store unavailable".toList

/-- The upsert on the documents:
`updateOne({ token }, { $set: { originalValue } }, { upsert: true })` changes
the first document with that token, or inserts one. -/
def upsertDoc (token value : JSString) : List Doc → List Doc
  | [] => [⟨token, value⟩]
  | d :: ds =>
    if d.token = token then ⟨d.token, value⟩ :: ds
    else d :: upsertDoc token value ds

/-- `tokenCollection.updateOne({ token }, { $set: { originalValue: value } },
{ upsert: true })`, as what its promise settles to. -/
def Collection.updateOne (c : Collection) (token value : JSString) :
    Except JSString Collection :=
  if c.reachable then .ok ⟨upsertDoc token value c.docs, true⟩
  else .error storeUnavailable

/-- `tokenCollection.findOne({ token })`, as what its promise settles to: the
first document with that token, or `null`. -/
def Collection.findOne (c : Collection) (token : JSString) :
    Except JSString (Option Doc) :=
  if c.reachable then .ok (c.docs.find? (fun d => decide (d.token = token)))
  else .error storeUnavailable

/-! ## `anonymizeMessage` -/

/-- What running `anonymizeMessage` does besides returning: the collection
with the writes issued so far applied in the order of issue, the `updateOne`
calls issued (filter token and value set), and the rejections of promises
that nothing awaits. -/
structure Effects where
  collection : Collection
  issued : List Doc
  unhandled : List JSString
deriving DecidableEq, Repr

/-- The `async (match) => { ... }` callback of `anonymizeMessage` for the
detector `type`.  Called by `replace`, it computes the token and issues the
write before it first suspends; what it hands back to `replace` is its
promise, fulfilled with the token once the write succeeds and rejected when
the write fails. -/
def anonymizeCallback (type : JSString) (matched : JSString) (e : Effects) :
    JSValue × Effects :=
  match e.collection.updateOne (generateToken (toUpperCase type) matched) matched with
  | .ok c =>
    (.promise (.ok (generateToken (toUpperCase type) matched)),
     ⟨c, e.issued ++ [⟨generateToken (toUpperCase type) matched, matched⟩], e.unhandled⟩)
  | .error err =>
    (.promise (.error err),
     ⟨e.collection, e.issued ++ [⟨generateToken (toUpperCase type) matched, matched⟩],
      e.unhandled ++ [err]⟩)

/-- One turn of the `for` loop of `anonymizeMessage`:
`anonymizedMessage = await anonymizedMessage.replace(pattern, callback)`.
The operand of `await` is the string that `replace` returns. -/
def anonymizeStep (acc : Except JSString JSString × Effects)
    (entry : JSString × RegExp) : Except JSString JSString × Effects :=
  match acc.1 with
  | .error err => (.error err, acc.2)
  | .ok text =>
    (awaitValue (.str (jsReplaceFn entry.2 (anonymizeCallback entry.1) text acc.2).1),
     (jsReplaceFn entry.2 (anonymizeCallback entry.1) text acc.2).2)

/-- Function `anonymizeMessage(message)` run against `tokenCollection`: what
the promise it returns settles to, and its effects. -/
def anonymizeMessage (tokenCollection : Collection) (message : JSString) :
    Except JSString JSString × Effects :=
  PII_PATTERNS.foldl anonymizeStep (.ok message, ⟨tokenCollection, [], []⟩)

/-! ## `deanonymizeMessage` -/

/-- One turn of the `for` loop of `deanonymizeMessage`: look the token up
and, when a document is found, replace its first occurrence in the message
reached so far. -/
def deanonymizeStep (tokenCollection : Collection) (message token : JSString) :
    Except JSString JSString :=
  match tokenCollection.findOne token with
  | .error err => .error err
  | .ok none => .ok message
  | .ok (some doc) => .ok (jsReplaceStr message token doc.originalValue)

/-- The `for (const token of tokens)` loop of `deanonymizeMessage`; a
rejected lookup ends the call. -/
def deanonymizeLoop (tokenCollection : Collection) :
    List JSString → JSString → Except JSString JSString
  | [], message => .ok message
  | token :: tokens, message =>
    match deanonymizeStep tokenCollection message token with
    | .error err => .error err
    | .ok next => deanonymizeLoop tokenCollection tokens next

/-- Function `deanonymizeMessage(anonymizedMessage)` run against
`tokenCollection`: what the promise it returns settles to. -/
def deanonymizeMessage (tokenCollection : Collection) (anonymizedMessage : JSString) :
    Except JSString JSString :=
  deanonymizeLoop tokenCollection (jsMatchAll tokenPattern anonymizedMessage)
    anonymizedMessage

/-! ## Notions used by the proofs -/

/-- The cursor `q`, were the text `z` to follow. -/
def extendBy (z : JSString) (q : Cursor) : Cursor := (q.1, q.2 ++ z)

/-- No character class of the expression contains `b`. -/
def RegExp.rejects : RegExp → Char → Bool
  | .cls p, b => !p b
  | .seq r₁ r₂, b => r₁.rejects b && r₂.rejects b
  | .exactly _ r, b => r.rejects b
  | .atLeast _ r, b => r.rejects b
  | .wordBoundary, _ => true

/-- The expression has no `\b`. -/
def RegExp.wordFree : RegExp → Bool
  | .cls _ => true
  | .seq r₁ r₂ => r₁.wordFree && r₂.wordFree
  | .exactly _ r => r.wordFree
  | .atLeast _ r => r.wordFree
  | .wordBoundary => false

/-- A syntactic reason why every match of the expression is non-empty. -/
def RegExp.consumes : RegExp → Bool
  | .cls _ => true
  | .seq r₁ r₂ => r₁.consumes || r₂.consumes
  | .exactly n r => decide (0 < n) && r.consumes
  | .atLeast n r => decide (0 < n) && r.consumes
  | .wordBoundary => false

/-- Whether the character before the position reached after reading `m` is a
word character, `w` being the answer before `m`. -/
def lastWord (w : Bool) : JSString → Bool
  | [] => w
  | c :: cs => lastWord (isWordChar c) cs

/-- The text `"[object Promise]"` that `replace` inserts for a promise. -/
def promiseText : JSString := "[object Promise]".toList

/-- The expression matches at no position of the text (`w`: whether the
character before the text is a word character). -/
def NoHit (r : RegExp) : Bool → JSString → Prop
  | w, [] => r.run (w, []) = []
  | w, c :: cs => r.run (w, c :: cs) = [] ∧ NoHit r (isWordChar c) cs

/-- The text `o` is the text `s` with some parts cut out and `promiseText`
put in their place; `keep w t` holds wherever a character is kept (`t` the
text from that character on, `w` the word status before it) and `cut w m t`
wherever a part `m` is cut (`t` the text after it). -/
inductive Redaction (keep : Bool → JSString → Prop)
    (cut : Bool → JSString → JSString → Prop) : Bool → JSString → JSString → Prop where
  | done (w : Bool) : Redaction keep cut w [] []
  | copy (w : Bool) (c : Char) (s o : JSString) :
      keep w (c :: s) → Redaction keep cut (isWordChar c) s o →
      Redaction keep cut w (c :: s) (c :: o)
  | replace (w : Bool) (m s o : JSString) :
      m ≠ [] → cut w m s → Redaction keep cut (lastWord w m) s o →
      Redaction keep cut w (m ++ s) (promiseText ++ o)

/-- The text that `replace` returns for an `async` callback, from a position
between matches on (`w`: whether the character before is a word character):
every match of `r` gives way to the text of a promise. -/
def redactFrom (r : RegExp) (w : Bool) (s : JSString) : JSString :=
  (replaceFrom r (fun _ (u : Unit) => (JSValue.promise (.ok []), u)) 0 w s ()).1

/-- The text that `s.replace(r, callback)` returns for an `async` callback. -/
def redact (r : RegExp) (s : JSString) : JSString := redactFrom r false s

/-- What a detector needs for the text of a promise to be opaque to it: its
classes contain neither bracket, it has no empty match, and it matches
nowhere inside `object Promise`. -/
structure Opaque (r : RegExp) : Prop where
  consumes : r.consumes = true
  left : r.rejects '[' = true
  right : r.rejects ']' = true
  inside : ∀ x, x ≠ [] → x <:+ "object Promise".toList → ∀ w, r.run (w, x) = []

/-! # Theorems -/

set_option maxRecDepth 100000

/-! ## The matcher: general facts -/

theorem run_cls_cons (p : Char → Bool) (w : Bool) (c : Char) (cs : JSString) :
    (RegExp.cls p).run (w, c :: cs) = if p c then [(isWordChar c, cs)] else [] := by
  simp [RegExp.run]

theorem run_seq (r₁ r₂ : RegExp) (p : Cursor) :
    (RegExp.seq r₁ r₂).run p = (r₁.run p).flatMap (fun q => r₂.run q) := by
  simp [RegExp.run]

theorem run_exactly (n : Nat) (r : RegExp) (p : Cursor) :
    (RegExp.exactly n r).run p = repeatN (fun q => r.run q) n p := by
  simp [RegExp.run]

theorem run_atLeast (n : Nat) (r : RegExp) (p : Cursor) :
    (RegExp.atLeast n r).run p =
      (repeatN (fun q => r.run q) n p).flatMap
        (fun q => starLoop (fun q' => r.run q') q.2.length q) := by
  simp [RegExp.run]

theorem run_wordBoundary (w : Bool) (s : JSString) :
    RegExp.wordBoundary.run (w, s) = if w != nextIsWord s then [(w, s)] else [] := by
  simp [RegExp.run]

/-- The bound on the iterations of `starLoop` does not matter once it is at
least the length of the text left. -/
theorem starLoop_fuel (body : Cursor → List Cursor) :
    ∀ (n m : Nat) (p : Cursor), p.2.length ≤ n → p.2.length ≤ m →
      starLoop body n p = starLoop body m p := by
  intro n
  induction n with
  | zero =>
    intro m p hn _
    have h0 : p.2.length = 0 := by omega
    cases m with
    | zero => rfl
    | succ m => simp [starLoop, h0]
  | succ n ih =>
    intro m p hn hm
    cases m with
    | zero =>
      have h0 : p.2.length = 0 := by omega
      simp [starLoop, h0]
    | succ m =>
      simp only [starLoop]
      congr 1
      apply List.flatMap_congr
      intro q hq
      have hlt : q.2.length < p.2.length := by
        simpa using (List.mem_filter.mp hq).2
      exact ih m q (by omega) (by omega)

theorem extendBy_snd_length (z : JSString) (q : Cursor) :
    (extendBy z q).2.length = q.2.length + z.length := by
  simp [extendBy]

theorem repeatN_extend (z : JSString) (body : Cursor → List Cursor)
    (hb : ∀ p, body (extendBy z p) = (body p).map (extendBy z)) :
    ∀ (n : Nat) (p : Cursor),
      repeatN body n (extendBy z p) = (repeatN body n p).map (extendBy z) := by
  intro n
  induction n with
  | zero => intro p; simp [repeatN]
  | succ n ih =>
    intro p
    simp only [repeatN, hb, List.flatMap_map, List.map_flatMap]
    apply List.flatMap_congr
    intro q _
    exact ih q

theorem starLoop_extend (z : JSString) (body : Cursor → List Cursor)
    (hb : ∀ p, body (extendBy z p) = (body p).map (extendBy z)) :
    ∀ (n : Nat) (p : Cursor),
      starLoop body n (extendBy z p) = (starLoop body n p).map (extendBy z) := by
  intro n
  induction n with
  | zero => intro p; simp [starLoop]
  | succ n ih =>
    intro p
    simp only [starLoop, hb, List.filter_map, List.flatMap_map, List.map_append,
      List.map_flatMap, List.map_cons, List.map_nil]
    congr 1
    have hf : ((fun q : Cursor => decide (q.2.length < (extendBy z p).2.length)) ∘ extendBy z)
        = (fun q : Cursor => decide (q.2.length < p.2.length)) := by
      funext q
      simp [extendBy_snd_length]
    rw [hf]
    apply List.flatMap_congr
    intro q _
    exact ih q

/-- A character that no class of the expression contains and that is not a
word character stops the matcher: with it ahead, the expression matches
exactly as it does on the text before it. -/
theorem run_barrier (b : Char) (y : JSString) (hw : isWordChar b = false) :
    ∀ (r : RegExp), r.rejects b = true →
      ∀ p, r.run (extendBy (b :: y) p) = (r.run p).map (extendBy (b :: y)) := by
  intro r
  induction r with
  | cls f =>
    intro hr p
    obtain ⟨w, s⟩ := p
    have hf : f b = false := by simpa [RegExp.rejects] using hr
    cases s with
    | nil => simp [extendBy, RegExp.run, hf]
    | cons c cs =>
      by_cases hc : f c = true <;> simp [extendBy, RegExp.run, hc]
  | seq r₁ r₂ ih₁ ih₂ =>
    intro hr p
    have h := hr
    simp only [RegExp.rejects, Bool.and_eq_true] at h
    simp only [run_seq, ih₁ h.1, List.flatMap_map, List.map_flatMap]
    apply List.flatMap_congr
    intro q _
    exact ih₂ h.2 q
  | exactly n r ih =>
    intro hr p
    simp only [run_exactly]
    exact repeatN_extend _ _ (ih (by simpa [RegExp.rejects] using hr)) n p
  | atLeast n r ih =>
    intro hr p
    have hb := ih (by simpa [RegExp.rejects] using hr)
    simp only [run_atLeast, repeatN_extend _ _ hb, List.flatMap_map, List.map_flatMap]
    apply List.flatMap_congr
    intro q _
    rw [starLoop_extend _ _ hb]
    rw [starLoop_fuel _ (extendBy (b :: y) q).2.length q.2.length q
      (by simp [extendBy_snd_length]) (le_refl _)]
  | wordBoundary =>
    intro _ p
    obtain ⟨w, s⟩ := p
    have hn : nextIsWord (s ++ b :: y) = nextIsWord s := by
      cases s <;> simp [nextIsWord, hw]
    by_cases h : (w != nextIsWord s) = true <;> simp [extendBy, RegExp.run, hn, h]

/-! ### What is left after a match is a suffix of the text -/

theorem repeatN_suffix (body : Cursor → List Cursor)
    (hb : ∀ p q, q ∈ body p → q.2 <:+ p.2) :
    ∀ (n : Nat) (p q : Cursor), q ∈ repeatN body n p → q.2 <:+ p.2 := by
  intro n
  induction n with
  | zero =>
    intro p q hq
    simp only [repeatN, List.mem_singleton] at hq
    subst hq
    exact List.suffix_refl _
  | succ n ih =>
    intro p q hq
    simp only [repeatN, List.mem_flatMap] at hq
    obtain ⟨a, ha, hqa⟩ := hq
    exact (ih a q hqa).trans (hb p a ha)

theorem starLoop_suffix (body : Cursor → List Cursor)
    (hb : ∀ p q, q ∈ body p → q.2 <:+ p.2) :
    ∀ (n : Nat) (p q : Cursor), q ∈ starLoop body n p → q.2 <:+ p.2 := by
  intro n
  induction n with
  | zero =>
    intro p q hq
    simp only [starLoop, List.mem_singleton] at hq
    subst hq
    exact List.suffix_refl _
  | succ n ih =>
    intro p q hq
    simp only [starLoop, List.mem_append, List.mem_flatMap, List.mem_filter,
      List.mem_singleton] at hq
    rcases hq with ⟨a, ⟨ha, _⟩, hqa⟩ | hq
    · exact (ih a q hqa).trans (hb p a ha)
    · subst hq
      exact List.suffix_refl _

theorem run_suffix : ∀ (r : RegExp) (p q : Cursor), q ∈ r.run p → q.2 <:+ p.2 := by
  intro r
  induction r with
  | cls f =>
    intro p q hq
    obtain ⟨w, s⟩ := p
    cases s with
    | nil => simp [RegExp.run] at hq
    | cons c cs =>
      by_cases hc : f c = true
      · simp only [RegExp.run, hc, if_true, List.mem_singleton] at hq
        subst hq
        exact List.suffix_cons c cs
      · simp [RegExp.run, hc] at hq
  | seq r₁ r₂ ih₁ ih₂ =>
    intro p q hq
    simp only [run_seq, List.mem_flatMap] at hq
    obtain ⟨a, ha, hqa⟩ := hq
    exact (ih₂ a q hqa).trans (ih₁ p a ha)
  | exactly n r ih =>
    intro p q hq
    rw [run_exactly] at hq
    exact repeatN_suffix _ ih n p q hq
  | atLeast n r ih =>
    intro p q hq
    simp only [run_atLeast, List.mem_flatMap] at hq
    obtain ⟨a, ha, hqa⟩ := hq
    exact (starLoop_suffix _ ih _ a q hqa).trans (repeatN_suffix _ ih n p a ha)
  | wordBoundary =>
    intro p q hq
    obtain ⟨w, s⟩ := p
    by_cases h : (w != nextIsWord s) = true
    · simp only [RegExp.run, h, if_true, List.mem_singleton] at hq
      subst hq
      exact List.suffix_refl _
    · simp [RegExp.run, h] at hq

/-! ### Expressions that consume a character -/

theorem repeatN_consumes (body : Cursor → List Cursor)
    (hs : ∀ p q, q ∈ body p → q.2 <:+ p.2)
    (hb : ∀ p q, q ∈ body p → q.2.length < p.2.length) :
    ∀ (n : Nat) (p q : Cursor), q ∈ repeatN body (n + 1) p → q.2.length < p.2.length := by
  intro n p q hq
  simp only [repeatN, List.mem_flatMap] at hq
  obtain ⟨a, ha, hqa⟩ := hq
  have h1 := hb p a ha
  have h2 := (repeatN_suffix body hs n a q hqa).length_le
  omega

/-- An expression that `consumes` has no empty match. -/
theorem run_consumes : ∀ (r : RegExp), r.consumes = true →
    ∀ (p q : Cursor), q ∈ r.run p → q.2.length < p.2.length := by
  intro r
  induction r with
  | cls f =>
    intro _ p q hq
    obtain ⟨w, s⟩ := p
    cases s with
    | nil => simp [RegExp.run] at hq
    | cons c cs =>
      by_cases hc : f c = true
      · simp only [RegExp.run, hc, if_true, List.mem_singleton] at hq
        subst hq
        simp
      · simp [RegExp.run, hc] at hq
  | seq r₁ r₂ ih₁ ih₂ =>
    intro hr p q hq
    simp only [run_seq, List.mem_flatMap] at hq
    obtain ⟨a, ha, hqa⟩ := hq
    have h1 := (run_suffix r₁ p a ha).length_le
    have h2 := (run_suffix r₂ a q hqa).length_le
    simp only [RegExp.consumes, Bool.or_eq_true] at hr
    rcases hr with hr | hr
    · have := ih₁ hr p a ha
      omega
    · have := ih₂ hr a q hqa
      omega
  | exactly n r ih =>
    intro hr p q hq
    simp only [RegExp.consumes, Bool.and_eq_true, decide_eq_true_eq] at hr
    rw [run_exactly] at hq
    obtain ⟨k, rfl⟩ : ∃ k, n = k + 1 := ⟨n - 1, by omega⟩
    exact repeatN_consumes _ (run_suffix r) (ih hr.2) k p q hq
  | atLeast n r ih =>
    intro hr p q hq
    simp only [RegExp.consumes, Bool.and_eq_true, decide_eq_true_eq] at hr
    simp only [run_atLeast, List.mem_flatMap] at hq
    obtain ⟨a, ha, hqa⟩ := hq
    obtain ⟨k, rfl⟩ : ∃ k, n = k + 1 := ⟨n - 1, by omega⟩
    have h1 := repeatN_consumes _ (run_suffix r) (ih hr.2) k p a ha
    have h2 := (starLoop_suffix _ (run_suffix r) _ a q hqa).length_le
    omega
  | wordBoundary =>
    intro hr
    simp [RegExp.consumes] at hr

/-! ### `exec` -/

theorem exec_eq_none_iff (r : RegExp) (w : Bool) (s : JSString) :
    r.exec w s = none ↔ r.run (w, s) = [] := by
  unfold RegExp.exec
  cases h : r.run (w, s) <;> simp

theorem exec_some_split (r : RegExp) (w : Bool) (s m rest : JSString)
    (h : r.exec w s = some (m, rest)) : s = m ++ rest := by
  unfold RegExp.exec at h
  cases hr : r.run (w, s) with
  | nil => simp [hr] at h
  | cons q l =>
    simp only [hr, Option.some.injEq, Prod.mk.injEq] at h
    obtain ⟨m', hm'⟩ := run_suffix r (w, s) q (by simp [hr])
    simp only at hm'
    obtain ⟨hm, hrest⟩ := h
    subst hrest
    rw [← hm, ← hm']
    simp

theorem exec_some_ne_nil (r : RegExp) (hr : r.consumes = true) (w : Bool)
    (s m rest : JSString) (h : r.exec w s = some (m, rest)) : m ≠ [] := by
  have hs := exec_some_split r w s m rest h
  unfold RegExp.exec at h
  cases hq : r.run (w, s) with
  | nil => simp [hq] at h
  | cons q l =>
    simp only [hq, Option.some.injEq, Prod.mk.injEq] at h
    have hlt := run_consumes r hr (w, s) q (by simp [hq])
    intro hm
    rw [hm] at hs
    simp only [List.nil_append] at hs
    rw [h.2] at hlt
    rw [hs] at hlt
    simp at hlt

theorem exec_nil (r : RegExp) (hr : r.consumes = true) (w : Bool) : r.exec w [] = none := by
  rw [exec_eq_none_iff]
  cases h : r.run (w, []) with
  | nil => rfl
  | cons q l =>
    have := run_consumes r hr (w, []) q (by simp [h])
    simp at this

/-! ## `replace` and `match` with a global regular expression -/

theorem replaceFrom_nil {σ : Type} (r : RegExp) (hr : r.consumes = true)
    (cb : JSString → σ → JSValue × σ) (k : Nat) (w : Bool) (st : σ) :
    replaceFrom r cb k w [] st = ([], st) := by
  cases k <;> simp [replaceFrom, exec_nil r hr]

theorem replaceFrom_none {σ : Type} (r : RegExp) (cb : JSString → σ → JSValue × σ)
    (w : Bool) (c : Char) (cs : JSString) (st : σ) (h : r.run (w, c :: cs) = []) :
    replaceFrom r cb 0 w (c :: cs) st =
      (c :: (replaceFrom r cb 0 (isWordChar c) cs st).1,
       (replaceFrom r cb 0 (isWordChar c) cs st).2) := by
  have h' := (exec_eq_none_iff r w (c :: cs)).mpr h
  simp [replaceFrom, h']

/-- Passing over the rest of a match. -/
theorem replaceFrom_skip {σ : Type} (r : RegExp) (cb : JSString → σ → JSValue × σ) :
    ∀ (m : JSString) (w : Bool) (rest : JSString) (st : σ),
      replaceFrom r cb m.length w (m ++ rest) st = replaceFrom r cb 0 (lastWord w m) rest st := by
  intro m
  induction m with
  | nil => intro w rest st; rfl
  | cons c cs ih =>
    intro w rest st
    simp only [List.length_cons, List.cons_append, replaceFrom, lastWord]
    exact ih (isWordChar c) rest st

theorem replaceFrom_some_cons {σ : Type} (r : RegExp) (cb : JSString → σ → JSValue × σ)
    (w : Bool) (c : Char) (t : JSString) (a : Char) (as rest : JSString) (st : σ)
    (h : r.exec w (c :: t) = some (a :: as, rest)) :
    replaceFrom r cb 0 w (c :: t) st =
      ((cb (a :: as) st).1.toJSString ++
          (replaceFrom r cb as.length (isWordChar c) t (cb (a :: as) st).2).1,
       (replaceFrom r cb as.length (isWordChar c) t (cb (a :: as) st).2).2) := by
  simp [replaceFrom, h]

/-- One step of `replace` at a match. -/
theorem replaceFrom_some {σ : Type} (r : RegExp) (hr : r.consumes = true)
    (cb : JSString → σ → JSValue × σ) (w : Bool) (s m rest : JSString) (st : σ)
    (h : r.exec w s = some (m, rest)) :
    replaceFrom r cb 0 w s st =
      ((cb m st).1.toJSString ++ (replaceFrom r cb 0 (lastWord w m) rest (cb m st).2).1,
       (replaceFrom r cb 0 (lastWord w m) rest (cb m st).2).2) := by
  have hs := exec_some_split r w s m rest h
  have hm := exec_some_ne_nil r hr w s m rest h
  cases m with
  | nil => exact absurd rfl hm
  | cons c cs =>
    subst hs
    rw [List.cons_append] at h ⊢
    rw [replaceFrom_some_cons r cb w c (cs ++ rest) c cs rest st h,
      replaceFrom_skip r cb cs (isWordChar c) rest _]
    rfl

theorem matchFrom_nil (r : RegExp) (hr : r.consumes = true) (k : Nat) (w : Bool) :
    matchFrom r k w [] = [] := by
  cases k <;> simp [matchFrom, exec_nil r hr]

theorem matchFrom_none (r : RegExp) (w : Bool) (c : Char) (cs : JSString)
    (h : r.run (w, c :: cs) = []) :
    matchFrom r 0 w (c :: cs) = matchFrom r 0 (isWordChar c) cs := by
  have h' := (exec_eq_none_iff r w (c :: cs)).mpr h
  simp [matchFrom, h']

theorem matchFrom_skip (r : RegExp) :
    ∀ (m : JSString) (w : Bool) (rest : JSString),
      matchFrom r m.length w (m ++ rest) = matchFrom r 0 (lastWord w m) rest := by
  intro m
  induction m with
  | nil => intro w rest; rfl
  | cons c cs ih =>
    intro w rest
    simp only [List.length_cons, List.cons_append, matchFrom, lastWord]
    exact ih (isWordChar c) rest

theorem matchFrom_some_cons (r : RegExp) (w : Bool) (c : Char) (t : JSString) (a : Char)
    (as rest : JSString) (h : r.exec w (c :: t) = some (a :: as, rest)) :
    matchFrom r 0 w (c :: t) = (a :: as) :: matchFrom r as.length (isWordChar c) t := by
  simp [matchFrom, h]

theorem matchFrom_some (r : RegExp) (hr : r.consumes = true) (w : Bool) (s m rest : JSString)
    (h : r.exec w s = some (m, rest)) :
    matchFrom r 0 w s = m :: matchFrom r 0 (lastWord w m) rest := by
  have hs := exec_some_split r w s m rest h
  have hm := exec_some_ne_nil r hr w s m rest h
  cases m with
  | nil => exact absurd rfl hm
  | cons c cs =>
    subst hs
    rw [List.cons_append] at h ⊢
    rw [matchFrom_some_cons r w c (cs ++ rest) c cs rest h, matchFrom_skip r cs (isWordChar c) rest]
    rfl

/-- The callback of `replace` runs once per match found by `match`, in the
same order: the effects of `replace` are those of the callback folded over
the matches. -/
theorem replaceFrom_effects {σ : Type} (r : RegExp) (cb : JSString → σ → JSValue × σ) :
    ∀ (s : JSString) (k : Nat) (w : Bool) (st : σ),
      (replaceFrom r cb k w s st).2 =
        (matchFrom r k w s).foldl (fun acc m => (cb m acc).2) st := by
  intro s
  induction s with
  | nil =>
    intro k w st
    cases k <;> cases h : r.exec w [] <;> simp [replaceFrom, matchFrom, h]
  | cons c cs ih =>
    intro k w st
    cases k with
    | succ k => simp only [replaceFrom, matchFrom]; exact ih k _ st
    | zero =>
      cases h : r.exec w (c :: cs) with
      | none => simp only [replaceFrom, matchFrom, h]; exact ih 0 _ st
      | some mr =>
        obtain ⟨m, rest⟩ := mr
        cases m with
        | nil => simp only [replaceFrom, matchFrom, h, List.foldl_cons]; exact ih 0 _ _
        | cons a as => simp only [replaceFrom, matchFrom, h, List.foldl_cons]; exact ih _ _ _

/-! ## The token pattern -/

theorem repeatN_cls (p : Char → Bool) :
    ∀ (l : JSString) (w : Bool) (rest : JSString), (∀ c ∈ l, p c = true) →
      repeatN (fun q => (RegExp.cls p).run q) l.length (w, l ++ rest) = [(lastWord w l, rest)] := by
  intro l
  induction l with
  | nil => intro w rest _; rfl
  | cons c cs ih =>
    intro w rest h
    have hc : p c = true := h c (List.mem_cons_self _ _)
    have hcs : ∀ x ∈ cs, p x = true := fun x hx => h x (List.mem_cons_of_mem _ hx)
    simp only [List.length_cons, List.cons_append, repeatN, run_cls_cons, hc, if_true,
      List.flatMap_cons, List.flatMap_nil, List.append_nil, lastWord]
    exact ih (isWordChar c) rest hcs

/-- A greedy run over a class takes all of a stretch of the class first. -/
theorem starLoop_cls_head (p : Char → Bool) (t : JSString)
    (ht : ∀ w, (RegExp.cls p).run (w, t) = []) :
    ∀ (l : JSString) (w : Bool) (n : Nat), (∀ c ∈ l, p c = true) → (l ++ t).length ≤ n →
      ∃ more, starLoop (fun q => (RegExp.cls p).run q) n (w, l ++ t)
        = (lastWord w l, t) :: more := by
  intro l
  induction l with
  | nil =>
    intro w n _ _
    cases n with
    | zero => exact ⟨[], rfl⟩
    | succ n => exact ⟨[], by simp [starLoop, ht, lastWord]⟩
  | cons c cs ih =>
    intro w n h hn
    have hc : p c = true := h c (List.mem_cons_self _ _)
    have hcs : ∀ x ∈ cs, p x = true := fun x hx => h x (List.mem_cons_of_mem _ hx)
    cases n with
    | zero => simp at hn
    | succ n =>
      obtain ⟨more, hmore⟩ := ih (isWordChar c) n hcs (by simpa using hn)
      refine ⟨more ++ [(w, c :: cs ++ t)], ?_⟩
      simp [starLoop, run_cls_cons, hc, hmore, lastWord]

theorem plus_cls_head (p : Char → Bool) (t : JSString)
    (ht : ∀ w, (RegExp.cls p).run (w, t) = []) (c : Char) (cs : JSString) (w : Bool)
    (h : ∀ x ∈ c :: cs, p x = true) :
    ∃ more, (RegExp.plus (RegExp.cls p)).run (w, c :: cs ++ t)
      = (lastWord w (c :: cs), t) :: more := by
  have hc : p c = true := h c (List.mem_cons_self _ _)
  have hcs : ∀ x ∈ cs, p x = true := fun x hx => h x (List.mem_cons_of_mem _ hx)
  obtain ⟨more, hmore⟩ := starLoop_cls_head p t ht cs (isWordChar c) (cs ++ t).length hcs (le_refl _)
  refine ⟨more, ?_⟩
  simp only [List.length_append] at hmore
  simp [RegExp.plus, run_atLeast, repeatN, run_cls_cons, hc, hmore, lastWord]

theorem exec_of_run_head (r : RegExp) (w w' : Bool) (m rest : JSString) (more : List Cursor)
    (h : r.run (w, m ++ rest) = (w', rest) :: more) :
    r.exec w (m ++ rest) = some (m, rest) := by
  unfold RegExp.exec
  rw [h]
  have hl : (m ++ rest).length - rest.length = m.length := by simp
  simp only [hl, List.take_left' rfl]

/-- At a token (upper-case letters, an underscore, twelve hexadecimal digits)
the token pattern matches exactly the token. -/
theorem token_exec (w : Bool) (u : Char) (us h rest : JSString)
    (hu : ∀ x ∈ u :: us, isAsciiUpper x = true) (hh : ∀ x ∈ h, isHexLower x = true)
    (hl : h.length = 12) :
    tokenPattern.exec w (u :: us ++ '_' :: h ++ rest) = some (u :: us ++ '_' :: h, rest) := by
  have ht : ∀ w', (RegExp.cls isAsciiUpper).run (w', '_' :: h ++ rest) = [] := by
    intro w'
    simp [run_cls_cons]
    decide
  obtain ⟨more, hmore⟩ := plus_cls_head isAsciiUpper ('_' :: h ++ rest) ht u us w hu
  have hrep := repeatN_cls isHexLower h (isWordChar '_') rest hh
  rw [hl] at hrep
  have e : u :: us ++ '_' :: h ++ rest = u :: us ++ ('_' :: h ++ rest) := by simp
  have hrun : ∃ more', tokenPattern.run (w, u :: us ++ '_' :: h ++ rest)
      = (lastWord (isWordChar '_') h, rest) :: more' := by
    rw [e]
    simp only [tokenPattern, run_seq]
    rw [hmore]
    simp only [List.flatMap_cons, RegExp.chr, List.cons_append,
      run_cls_cons, beq_self_eq_true, if_true, run_exactly, List.flatMap_nil, List.append_nil,
      hrep, List.nil_append]
    exact ⟨_, rfl⟩
  obtain ⟨more', hmore'⟩ := hrun
  have e' : u :: us ++ '_' :: h ++ rest = (u :: us ++ '_' :: h) ++ rest := by simp
  rw [e'] at hmore' ⊢
  exact exec_of_run_head _ _ _ _ _ _ hmore'

/-! ## `generateToken` -/

/-- The embedding of MD5 on the test suite of RFC 1321. -/
theorem md5Hex_test_suite :
    md5Hex "".toList = "d41d8cd98f00b204e9800998ecf8427e".toList ∧
    md5Hex "abc".toList = "900150983cd24fb0d6963f7d28e17f72".toList ∧
    md5Hex "message digest".toList = "f96b697d7cb7938d525a2f31aaf161d0".toList ∧
    md5Hex "12345678901234567890123456789012345678901234567890123456789012345678901234567890".toList
      = "57edf4a22be3c955ac49da2e2107b67a".toList :=
  ⟨rfl, rfl, rfl, rfl⟩

theorem isHexLower_hexDigit (n : Nat) : isHexLower (hexDigit n) = true := by
  unfold hexDigit
  have h : n % 16 < 16 := Nat.mod_lt _ (by decide)
  generalize n % 16 = k at h
  interval_cases k <;> decide

theorem md5Hex_length (input : JSString) : (md5Hex input).length = 32 := by
  simp [md5Hex, wordBytes, byteHex]

theorem md5Hex_hex (input : JSString) : ∀ c ∈ md5Hex input, isHexLower c = true := by
  intro c hc
  simp only [md5Hex, wordBytes, byteHex, List.mem_flatMap] at hc
  obtain ⟨b, _, hb⟩ := hc
  simp only [List.mem_cons, List.mem_singleton, List.not_mem_nil, or_false] at hb
  rcases hb with rfl | rfl <;> exact isHexLower_hexDigit _

theorem token_consumes : tokenPattern.consumes = true := rfl

/-- On a text that is one token, the scan of the deanonymizer finds that
token, whole, and nothing else. -/
theorem token_matchAll (us h : JSString) (hne : us ≠ [])
    (hu : ∀ x ∈ us, isAsciiUpper x = true) (hh : ∀ x ∈ h, isHexLower x = true)
    (hl : h.length = 12) :
    jsMatchAll tokenPattern (us ++ '_' :: h) = [us ++ '_' :: h] := by
  cases us with
  | nil => exact absurd rfl hne
  | cons u us =>
    have he := token_exec false u us h [] hu hh hl
    rw [List.append_nil] at he
    unfold jsMatchAll
    rw [matchFrom_some tokenPattern token_consumes false _ _ _ he,
      matchFrom_nil tokenPattern token_consumes]

/-- C3: for every detector of the registry and every input, the token
`generateToken(name.toUpperCase(), input)` is the upper-cased name, an
underscore, and the first twelve characters of the hexadecimal MD5 digest of
the input, twelve characters of `[a-f0-9]`; and the token pattern of the
deanonymizer, run over the token, finds exactly the whole token. -/
theorem generateToken_shape (entry : JSString × RegExp) (hentry : entry ∈ PII_PATTERNS)
    (input : JSString) :
    ((md5Hex input).take 12).length = 12 ∧
    (∀ c ∈ (md5Hex input).take 12, isHexLower c = true) ∧
    generateToken (toUpperCase entry.1) input
      = toUpperCase entry.1 ++ '_' :: (md5Hex input).take 12 ∧
    jsMatchAll tokenPattern (generateToken (toUpperCase entry.1) input)
      = [generateToken (toUpperCase entry.1) input] := by
  have hlen : ((md5Hex input).take 12).length = 12 := by
    simp [List.length_take, md5Hex_length]
  have hhex : ∀ c ∈ (md5Hex input).take 12, isHexLower c = true :=
    fun c hc => md5Hex_hex input c (List.mem_of_mem_take hc)
  refine ⟨hlen, hhex, rfl, ?_⟩
  have hup : toUpperCase entry.1 ≠ [] ∧ ∀ x ∈ toUpperCase entry.1, isAsciiUpper x = true := by
    simp only [PII_PATTERNS, List.mem_cons, List.mem_singleton, List.not_mem_nil, or_false]
      at hentry
    rcases hentry with rfl | rfl | rfl <;> exact ⟨by decide, by decide⟩
  exact token_matchAll _ _ hup.1 hup.2 hhex hlen

/-- C3 at the detector `name` and the input `Juan Perez`. -/
theorem generateToken_shape_witness :
    ("name".toList, namePattern) ∈ PII_PATTERNS ∧
    generateToken (toUpperCase "name".toList) "Juan Perez".toList
      = "NAME".toList ++ '_' :: (md5Hex "Juan Perez".toList).take 12 ∧
    jsMatchAll tokenPattern (generateToken (toUpperCase "name".toList) "Juan Perez".toList)
      = [generateToken (toUpperCase "name".toList) "Juan Perez".toList] :=
  ⟨List.mem_cons_self _ _,
   (generateToken_shape ("name".toList, namePattern) (List.mem_cons_self _ _)
      "Juan Perez".toList).2.2.1,
   (generateToken_shape ("name".toList, namePattern) (List.mem_cons_self _ _)
      "Juan Perez".toList).2.2.2⟩

/-! ## `deanonymizeMessage`: one replacement per token found -/

theorem find_upsert_same (k v : JSString) :
    ∀ (docs : List Doc),
      (upsertDoc k v docs).find? (fun d => decide (d.token = k)) = some ⟨k, v⟩ := by
  intro docs
  induction docs with
  | nil => simp [upsertDoc]
  | cons d ds ih =>
    by_cases h : d.token = k
    · simp [upsertDoc, h]
    · simp [upsertDoc, h, ih]

theorem find_upsert_other (k v k' : JSString) (hk : k ≠ k') :
    ∀ (docs : List Doc),
      (upsertDoc k v docs).find? (fun d => decide (d.token = k'))
        = docs.find? (fun d => decide (d.token = k')) := by
  intro docs
  induction docs with
  | nil => simp [upsertDoc, hk]
  | cons d ds ih =>
    by_cases h : d.token = k
    · have h' : d.token ≠ k' := fun e => hk (h ▸ e)
      simp [upsertDoc, h, hk, h']
    · by_cases h' : d.token = k'
      · simp only [upsertDoc, h, if_false]
        simp [h']
      · simp only [upsertDoc, h, if_false]
        simp [h', ih]

theorem find_writes_other (k : JSString) :
    ∀ (l : List Doc) (docs : List Doc), (∀ d ∈ l, d.token ≠ k) →
      (l.foldl (fun ds d => upsertDoc d.token d.originalValue ds) docs).find?
          (fun d => decide (d.token = k))
        = docs.find? (fun d => decide (d.token = k)) := by
  intro l
  induction l with
  | nil => intro docs _; rfl
  | cons d l ih =>
    intro docs h
    rw [List.foldl_cons, ih _ (fun x hx => h x (List.mem_cons_of_mem _ hx))]
    exact find_upsert_other _ _ _ (h d (List.mem_cons_self _ _)) docs

theorem find_writes_same :
    ∀ (l : List Doc) (docs : List Doc) (d : Doc), d ∈ l →
      (∀ d' ∈ l, d'.token = d.token → d'.originalValue = d.originalValue) →
      (l.foldl (fun ds x => upsertDoc x.token x.originalValue ds) docs).find?
          (fun x => decide (x.token = d.token))
        = some ⟨d.token, d.originalValue⟩ := by
  intro l
  induction l with
  | nil => intro docs d hd; simp at hd
  | cons a l ih =>
    intro docs d hd hcol
    rw [List.foldl_cons]
    by_cases hex : ∃ d' ∈ l, d'.token = d.token
    · obtain ⟨d', hd', ht⟩ := hex
      have hv := hcol d' (List.mem_cons_of_mem _ hd') ht
      have := ih (upsertDoc a.token a.originalValue docs) d' hd' (fun x hx hxt =>
        (hcol x (List.mem_cons_of_mem _ hx) (hxt.trans ht)).trans hv.symm)
      rw [ht, hv] at this
      exact this
    · have hno : ∀ x ∈ l, x.token ≠ d.token := fun x hx hxt => hex ⟨x, hx, hxt⟩
      rw [find_writes_other d.token l _ hno]
      have hda : d = a := by
        rcases List.mem_cons.mp hd with h | h
        · exact h
        · exact absurd rfl (hno d h)
      rw [hda]
      exact find_upsert_same _ _ docs

/-- The text that `replace` returns does not depend on the callback, as long
as it returns promises. -/
theorem replaceFrom_text {σ : Type} (r : RegExp) (cb : JSString → σ → JSValue × σ)
    (hcb : ∀ m st, (cb m st).1.toJSString = promiseText) :
    ∀ (s : JSString) (k : Nat) (w : Bool) (st : σ),
      (replaceFrom r cb k w s st).1 =
        (replaceFrom r (fun _ (u : Unit) => (JSValue.promise (.ok []), u)) k w s ()).1 := by
  intro s
  induction s with
  | nil =>
    intro k w st
    cases k <;> cases h : r.exec w [] <;> simp [replaceFrom, h, hcb] <;> rfl
  | cons c cs ih =>
    intro k w st
    cases k with
    | succ k => simp only [replaceFrom]; exact ih k _ st
    | zero =>
      cases h : r.exec w (c :: cs) with
      | none => simp only [replaceFrom, h]; rw [ih 0 _ st]
      | some mr =>
        obtain ⟨m, rest⟩ := mr
        cases m with
        | nil =>
          simp only [replaceFrom, h, hcb]
          rw [ih 0 _ _]
          rfl
        | cons a as =>
          simp only [replaceFrom, h, hcb]
          rw [ih _ _ _]
          rfl

theorem anonymizeCallback_text (type matched : JSString) (e : Effects) :
    (anonymizeCallback type matched e).1.toJSString = promiseText := by
  unfold anonymizeCallback
  cases e.collection.updateOne (generateToken (toUpperCase type) matched) matched <;> rfl

theorem jsReplaceFn_anonymize_text (type : JSString) (r : RegExp) (s : JSString) (e : Effects) :
    (jsReplaceFn r (anonymizeCallback type) s e).1 = redact r s :=
  replaceFrom_text r _ (anonymizeCallback_text type) s 0 false e

/-- The effects of the callbacks of one detector when the store answers: one
write per match, applied and logged in order. -/
theorem anonymize_effects_fold (type : JSString) :
    ∀ (ms : List JSString) (e : Effects), e.collection.reachable = true →
      ms.foldl (fun acc m => (anonymizeCallback type m acc).2) e =
        ⟨⟨(ms.map (fun m => (⟨generateToken (toUpperCase type) m, m⟩ : Doc))).foldl
              (fun ds d => upsertDoc d.token d.originalValue ds) e.collection.docs, true⟩,
          e.issued ++ ms.map (fun m => (⟨generateToken (toUpperCase type) m, m⟩ : Doc)),
          e.unhandled⟩ := by
  intro ms
  induction ms with
  | nil =>
    intro e he
    obtain ⟨⟨docs, reach⟩, issued, unh⟩ := e
    simp only at he
    simp [he]
  | cons m ms ih =>
    intro e he
    have hstep : (anonymizeCallback type m e).2 =
        ⟨⟨upsertDoc (generateToken (toUpperCase type) m) m e.collection.docs, true⟩,
          e.issued ++ [⟨generateToken (toUpperCase type) m, m⟩], e.unhandled⟩ := by
      simp [anonymizeCallback, Collection.updateOne, he]
    rw [List.foldl_cons, hstep, ih _ rfl]
    simp

theorem jsReplaceFn_anonymize_effects (type : JSString) (r : RegExp) (s : JSString)
    (e : Effects) (he : e.collection.reachable = true) :
    (jsReplaceFn r (anonymizeCallback type) s e).2 =
      ⟨⟨((jsMatchAll r s).map (fun m => (⟨generateToken (toUpperCase type) m, m⟩ : Doc))).foldl
            (fun ds d => upsertDoc d.token d.originalValue ds) e.collection.docs, true⟩,
        e.issued ++ (jsMatchAll r s).map
          (fun m => (⟨generateToken (toUpperCase type) m, m⟩ : Doc)),
        e.unhandled⟩ := by
  unfold jsReplaceFn jsMatchAll
  rw [replaceFrom_effects]
  exact anonymize_effects_fold type _ e he

/-- The text `anonymizeMessage` returns: the three detectors in turn, each
match giving way to the text of a promise; the call does not fail. -/
theorem anonymizeMessage_text (c : Collection) (message : JSString) :
    (anonymizeMessage c message).1
      = .ok (redact phonePattern (redact emailPattern (redact namePattern message))) := by
  simp [anonymizeMessage, PII_PATTERNS, anonymizeStep, awaitValue, jsReplaceFn_anonymize_text]

/-- The writes `anonymizeMessage` issues: for each detector in turn, one per
match found in the text reached so far. -/
theorem anonymizeMessage_effects (c : Collection) (message : JSString)
    (hc : c.reachable = true) :
    (anonymizeMessage c message).2 =
      ⟨⟨(((jsMatchAll namePattern message).map
              (fun m => (⟨generateToken (toUpperCase "name".toList) m, m⟩ : Doc)) ++
            (jsMatchAll emailPattern (redact namePattern message)).map
              (fun m => (⟨generateToken (toUpperCase "email".toList) m, m⟩ : Doc)) ++
            (jsMatchAll phonePattern (redact emailPattern (redact namePattern message))).map
              (fun m => (⟨generateToken (toUpperCase "phone".toList) m, m⟩ : Doc)))).foldl
            (fun ds d => upsertDoc d.token d.originalValue ds) c.docs, true⟩,
        (jsMatchAll namePattern message).map
            (fun m => (⟨generateToken (toUpperCase "name".toList) m, m⟩ : Doc)) ++
          (jsMatchAll emailPattern (redact namePattern message)).map
            (fun m => (⟨generateToken (toUpperCase "email".toList) m, m⟩ : Doc)) ++
          (jsMatchAll phonePattern (redact emailPattern (redact namePattern message))).map
            (fun m => (⟨generateToken (toUpperCase "phone".toList) m, m⟩ : Doc)),
        []⟩ := by
  simp only [anonymizeMessage, PII_PATTERNS, List.foldl_cons, List.foldl_nil, anonymizeStep,
    awaitValue, jsReplaceFn_anonymize_text]
  rw [jsReplaceFn_anonymize_effects "name".toList namePattern message _ hc,
    jsReplaceFn_anonymize_effects "email".toList emailPattern _ _ rfl,
    jsReplaceFn_anonymize_effects "phone".toList phonePattern _ _ rfl]
  simp [List.foldl_append]

/-- C9: against a store that answers, `anonymizeMessage` issues one upsert
per match of each detector over the text reached so far (name, then e-mail,
then phone), in order, with the token of the match as key and the matched
text as value; no write is rejected; once these writes are applied, the
lookup of the token of a write returns its matched text, provided no other
write of the call has the same token with another text; and the lookup of any
other key returns what it returned before. -/
theorem anonymize_store_postcondition (c : Collection) (message : JSString)
    (hc : c.reachable = true) :
    (anonymizeMessage c message).2.issued =
      (jsMatchAll namePattern message).map
          (fun m => (⟨generateToken (toUpperCase "name".toList) m, m⟩ : Doc)) ++
        (jsMatchAll emailPattern (redact namePattern message)).map
          (fun m => (⟨generateToken (toUpperCase "email".toList) m, m⟩ : Doc)) ++
        (jsMatchAll phonePattern (redact emailPattern (redact namePattern message))).map
          (fun m => (⟨generateToken (toUpperCase "phone".toList) m, m⟩ : Doc)) ∧
    (anonymizeMessage c message).2.unhandled = [] ∧
    (∀ d ∈ (anonymizeMessage c message).2.issued,
      (∀ d' ∈ (anonymizeMessage c message).2.issued,
        d'.token = d.token → d'.originalValue = d.originalValue) →
      (anonymizeMessage c message).2.collection.findOne d.token
        = .ok (some ⟨d.token, d.originalValue⟩)) ∧
    (∀ k, (∀ d ∈ (anonymizeMessage c message).2.issued, d.token ≠ k) →
      (anonymizeMessage c message).2.collection.findOne k = c.findOne k) := by
  rw [anonymizeMessage_effects c message hc]
  refine ⟨rfl, rfl, ?_, ?_⟩
  · intro d hd hcol
    simp only [Collection.findOne, if_true]
    rw [find_writes_same _ c.docs d hd hcol]
  · intro k hk
    simp only [Collection.findOne, hc, if_true]
    rw [find_writes_other k _ c.docs hk]

/-- C9 at `Llama a Juan Perez` against a store with one record: one write,
for the name; its token is found afterwards, and the record that was there is
untouched. -/
theorem anonymize_store_postcondition_witness :
    (anonymizeMessage ⟨[⟨"EMAIL_000000000000".toList, "x@y.zz".toList⟩], true⟩
        "Llama a Juan Perez".toList).2.issued
      = [⟨"NAME_f640a508c7c9".toList, "Juan Perez".toList⟩] ∧
    (anonymizeMessage ⟨[⟨"EMAIL_000000000000".toList, "x@y.zz".toList⟩], true⟩
        "Llama a Juan Perez".toList).2.collection.findOne "NAME_f640a508c7c9".toList
      = .ok (some ⟨"NAME_f640a508c7c9".toList, "Juan Perez".toList⟩) ∧
    (anonymizeMessage ⟨[⟨"EMAIL_000000000000".toList, "x@y.zz".toList⟩], true⟩
        "Llama a Juan Perez".toList).2.collection.findOne "EMAIL_000000000000".toList
      = .ok (some ⟨"EMAIL_000000000000".toList, "x@y.zz".toList⟩) :=
  ⟨(anonymize_store_postcondition
      ⟨[⟨"EMAIL_000000000000".toList, "x@y.zz".toList⟩], true⟩ "Llama a Juan Perez".toList
      rfl).1,
   rfl, rfl⟩

/-! ## Later detectors and the text emitted by earlier ones -/

theorem run_nil_of_consumes (r : RegExp) (hr : r.consumes = true) (w : Bool) :
    r.run (w, []) = [] :=
  (exec_eq_none_iff r w []).mp (exec_nil r hr w)

theorem promiseText_eq : promiseText = '[' :: ("object Promise".toList ++ [']']) := by decide

theorem run_in_promise (r : RegExp) (hr : Opaque r) (x post : JSString)
    (hx : x <:+ "object Promise".toList) (w : Bool) :
    r.run (w, x ++ ']' :: post) = [] := by
  have hb := run_barrier ']' post (by decide) r hr.right (w, x)
  simp only [extendBy] at hb
  rw [hb]
  cases x with
  | nil => rw [run_nil_of_consumes r hr.consumes]; rfl
  | cons c cs => rw [hr.inside (c :: cs) (by simp) hx w]; rfl

theorem run_at_promise (r : RegExp) (hr : Opaque r) (rest : JSString) (w : Bool) :
    r.run (w, '[' :: rest) = [] := by
  have hb := run_barrier '[' rest (by decide) r hr.left (w, [])
  simp only [extendBy, List.nil_append] at hb
  rw [hb, run_nil_of_consumes r hr.consumes]
  rfl

theorem promiseText_append (post : JSString) :
    promiseText ++ post = '[' :: ("object Promise]".toList ++ post) := by
  rfl

theorem inside_of_tails (r : RegExp)
    (h : ∀ x ∈ "object Promise".toList.tails, x ≠ [] →
      r.run (true, x) = [] ∧ r.run (false, x) = []) :
    ∀ x, x ≠ [] → x <:+ "object Promise".toList → ∀ w, r.run (w, x) = [] := by
  intro x hx hs w
  have := h x ((List.mem_tails _ _).mpr hs) hx
  cases w
  · exact this.2
  · exact this.1

theorem opaque_email : Opaque emailPattern :=
  ⟨rfl, rfl, rfl, inside_of_tails _ (by decide)⟩

theorem opaque_phone : Opaque phonePattern :=
  ⟨rfl, rfl, rfl, inside_of_tails _ (by decide)⟩

theorem opaque_name : Opaque namePattern :=
  ⟨rfl, rfl, rfl, inside_of_tails _ (by decide)⟩

theorem redactFrom_nil (r : RegExp) (hr : r.consumes = true) (w : Bool) :
    redactFrom r w [] = [] := by
  unfold redactFrom
  rw [replaceFrom_nil r hr]

theorem redactFrom_none (r : RegExp) (w : Bool) (c : Char) (cs : JSString)
    (h : r.run (w, c :: cs) = []) :
    redactFrom r w (c :: cs) = c :: redactFrom r (isWordChar c) cs := by
  unfold redactFrom
  rw [replaceFrom_none r _ w c cs () h]

theorem redactFrom_some (r : RegExp) (hr : r.consumes = true) (w : Bool) (s m rest : JSString)
    (h : r.exec w s = some (m, rest)) :
    redactFrom r w s = promiseText ++ redactFrom r (lastWord w m) rest := by
  unfold redactFrom
  rw [replaceFrom_some r hr _ w s m rest () h]
  rfl

theorem repeatN_mono (z : JSString) (body : Cursor → List Cursor)
    (hb : ∀ p q, q ∈ body p → extendBy z q ∈ body (extendBy z p)) :
    ∀ (n : Nat) (p q : Cursor), q ∈ repeatN body n p →
      extendBy z q ∈ repeatN body n (extendBy z p) := by
  intro n
  induction n with
  | zero =>
    intro p q hq
    simp only [repeatN, List.mem_singleton] at hq ⊢
    rw [hq]
  | succ n ih =>
    intro p q hq
    simp only [repeatN, List.mem_flatMap] at hq ⊢
    obtain ⟨a, ha, hqa⟩ := hq
    exact ⟨extendBy z a, hb p a ha, ih a q hqa⟩

theorem starLoop_mono (z : JSString) (body : Cursor → List Cursor)
    (hb : ∀ p q, q ∈ body p → extendBy z q ∈ body (extendBy z p)) :
    ∀ (n : Nat) (p q : Cursor), q ∈ starLoop body n p →
      extendBy z q ∈ starLoop body n (extendBy z p) := by
  intro n
  induction n with
  | zero =>
    intro p q hq
    simp only [starLoop, List.mem_singleton] at hq ⊢
    rw [hq]
  | succ n ih =>
    intro p q hq
    simp only [starLoop, List.mem_append, List.mem_flatMap, List.mem_filter,
      List.mem_singleton, decide_eq_true_eq] at hq ⊢
    rcases hq with ⟨a, ⟨ha, hlt⟩, hqa⟩ | hq
    · refine Or.inl ⟨extendBy z a, ⟨hb p a ha, ?_⟩, ih a q hqa⟩
      simp only [extendBy_snd_length]
      omega
    · exact Or.inr (by rw [hq])

/-- Without `\b`, a match stays a match when text is added after the text
matched against. -/
theorem run_mono (z : JSString) : ∀ (r : RegExp), r.wordFree = true →
    ∀ (p q : Cursor), q ∈ r.run p → extendBy z q ∈ r.run (extendBy z p) := by
  intro r
  induction r with
  | cls f =>
    intro _ p q hq
    obtain ⟨w, s⟩ := p
    cases s with
    | nil => simp [RegExp.run] at hq
    | cons c cs =>
      by_cases hc : f c = true
      · simp only [RegExp.run, hc, if_true, List.mem_singleton] at hq
        subst hq
        simp [extendBy, RegExp.run, hc]
      · simp [RegExp.run, hc] at hq
  | seq r₁ r₂ ih₁ ih₂ =>
    intro hr p q hq
    simp only [RegExp.wordFree, Bool.and_eq_true] at hr
    simp only [run_seq, List.mem_flatMap] at hq ⊢
    obtain ⟨a, ha, hqa⟩ := hq
    exact ⟨extendBy z a, ih₁ hr.1 p a ha, ih₂ hr.2 a q hqa⟩
  | exactly n r ih =>
    intro hr p q hq
    rw [run_exactly] at hq ⊢
    exact repeatN_mono z _ (ih (by simpa [RegExp.wordFree] using hr)) n p q hq
  | atLeast n r ih =>
    intro hr p q hq
    have hb := ih (by simpa [RegExp.wordFree] using hr)
    simp only [run_atLeast, List.mem_flatMap] at hq ⊢
    obtain ⟨a, ha, hqa⟩ := hq
    refine ⟨extendBy z a, repeatN_mono z _ hb n p a ha, ?_⟩
    rw [starLoop_fuel _ a.2.length (extendBy z a).2.length a (le_refl _)
      (by simp [extendBy_snd_length])] at hqa
    exact starLoop_mono z _ hb _ a q hqa
  | wordBoundary =>
    intro hr
    simp [RegExp.wordFree] at hr

theorem flatMap_snd_congr (g : JSString → Bool) (f : Cursor → List Cursor)
    (hf : ∀ w w' s, (f (w, s)).map Prod.snd = (f (w', s)).map Prod.snd) :
    ∀ (l l' : List Cursor), l.map Prod.snd = l'.map Prod.snd →
      ((l.filter (fun q => g q.2)).flatMap f).map Prod.snd
        = ((l'.filter (fun q => g q.2)).flatMap f).map Prod.snd := by
  intro l
  induction l with
  | nil =>
    intro l' h
    cases l' with
    | nil => rfl
    | cons a l' => simp at h
  | cons a l ih =>
    intro l' h
    cases l' with
    | nil => simp at h
    | cons a' l' =>
      simp only [List.map_cons, List.cons.injEq] at h
      obtain ⟨w, s⟩ := a
      obtain ⟨w', s'⟩ := a'
      simp only at h
      obtain ⟨hs, hl⟩ := h
      subst hs
      have := ih l' hl
      by_cases hg : g s = true
      · simp only [List.filter_cons, hg, if_true, List.flatMap_cons, List.map_append, this,
          hf w w' s]
      · simp only [List.filter_cons, hg, if_false, this, Bool.false_eq_true]

theorem repeatN_irrelevant (body : Cursor → List Cursor)
    (hb : ∀ w w' s, (body (w, s)).map Prod.snd = (body (w', s)).map Prod.snd) :
    ∀ (n : Nat) (w w' : Bool) (s : JSString),
      (repeatN body n (w, s)).map Prod.snd = (repeatN body n (w', s)).map Prod.snd := by
  intro n
  induction n with
  | zero => intro w w' s; rfl
  | succ n ih =>
    intro w w' s
    have := flatMap_snd_congr (fun _ => true) (repeatN body n) ih _ _ (hb w w' s)
    simpa [repeatN] using this

theorem starLoop_irrelevant (body : Cursor → List Cursor)
    (hb : ∀ w w' s, (body (w, s)).map Prod.snd = (body (w', s)).map Prod.snd) :
    ∀ (n : Nat) (w w' : Bool) (s : JSString),
      (starLoop body n (w, s)).map Prod.snd = (starLoop body n (w', s)).map Prod.snd := by
  intro n
  induction n with
  | zero => intro w w' s; rfl
  | succ n ih =>
    intro w w' s
    have := flatMap_snd_congr (fun t => decide (t.length < s.length)) (starLoop body n) ih _ _
      (hb w w' s)
    simp only [starLoop, List.map_append, this, List.map_cons, List.map_nil]

/-- Without `\b`, what is before the text does not matter to the matcher. -/
theorem run_irrelevant : ∀ (r : RegExp), r.wordFree = true → ∀ (w w' : Bool) (s : JSString),
    (r.run (w, s)).map Prod.snd = (r.run (w', s)).map Prod.snd := by
  intro r
  induction r with
  | cls f =>
    intro _ w w' s
    cases s with
    | nil => simp [RegExp.run]
    | cons c cs => simp [RegExp.run]
  | seq r₁ r₂ ih₁ ih₂ =>
    intro hr w w' s
    simp only [RegExp.wordFree, Bool.and_eq_true] at hr
    have := flatMap_snd_congr (fun _ => true) (fun q => r₂.run q) (ih₂ hr.2) _ _ (ih₁ hr.1 w w' s)
    simpa [run_seq] using this
  | exactly n r ih =>
    intro hr w w' s
    simp only [run_exactly]
    exact repeatN_irrelevant _ (ih (by simpa [RegExp.wordFree] using hr)) n w w' s
  | atLeast n r ih =>
    intro hr w w' s
    have hb := ih (by simpa [RegExp.wordFree] using hr)
    have := flatMap_snd_congr (fun _ => true)
      (fun q => starLoop (fun q' => r.run q') q.2.length q)
      (fun w w' s => starLoop_irrelevant _ hb s.length w w' s) _ _
      (repeatN_irrelevant _ hb n w w' s)
    simpa [run_atLeast] using this
  | wordBoundary =>
    intro hr
    simp [RegExp.wordFree] at hr

theorem run_nil_irrelevant (r : RegExp) (hr : r.wordFree = true) (w w' : Bool) (s : JSString)
    (h : r.run (w, s) = []) : r.run (w', s) = [] := by
  have := run_irrelevant r hr w w' s
  rw [h] at this
  simpa using this.symm

/-! ## Texts without a match -/

theorem noHit_matchFrom (r : RegExp) (hr : r.consumes = true) :
    ∀ (s : JSString) (w : Bool), NoHit r w s → matchFrom r 0 w s = [] := by
  intro s
  induction s with
  | nil => intro w _; exact matchFrom_nil r hr 0 w
  | cons c cs ih =>
    intro w h
    rw [matchFrom_none r w c cs h.1, ih _ h.2]

theorem noHit_irrelevant (r : RegExp) (hr : r.wordFree = true) :
    ∀ (s : JSString) (w w' : Bool), NoHit r w s → NoHit r w' s := by
  intro s
  cases s with
  | nil => intro w w' h; exact run_nil_irrelevant r hr w w' [] h
  | cons c cs => intro w w' h; exact ⟨run_nil_irrelevant r hr w w' _ h.1, h.2⟩

theorem noHit_suffix (r : RegExp) :
    ∀ (x : JSString) (w : Bool) (y : JSString), NoHit r w (x ++ y) → NoHit r (lastWord w x) y := by
  intro x
  induction x with
  | nil => intro w y h; exact h
  | cons c cs ih => intro w y h; exact ih _ y h.2

theorem noHit_in_promise (r : RegExp) (hr : Opaque r) (o : JSString) (ho : NoHit r false o) :
    ∀ (x : JSString), x <:+ "object Promise".toList → ∀ w, NoHit r w (x ++ ']' :: o) := by
  intro x
  induction x with
  | nil => intro hx w; exact ⟨run_in_promise r hr [] o hx w, ho⟩
  | cons c cs ih =>
    intro hx w
    exact ⟨run_in_promise r hr (c :: cs) o hx w, ih ((List.suffix_cons c cs).trans hx) _⟩

/-- The text of a promise before a text without a match: still no match. -/
theorem noHit_promise (r : RegExp) (hr : Opaque r) (o : JSString) (ho : NoHit r false o)
    (w : Bool) : NoHit r w (promiseText ++ o) := by
  rw [promiseText_eq]
  have e : '[' :: ("object Promise".toList ++ [']']) ++ o
      = '[' :: ("object Promise".toList ++ ']' :: o) := by simp
  rw [e]
  exact ⟨run_at_promise r hr _ w, noHit_in_promise r hr o ho _ (List.suffix_refl _) _⟩

/-! ## Redactions -/

theorem redaction_inv {keep : Bool → JSString → Prop} {cut : Bool → JSString → JSString → Prop}
    {w : Bool} {s o : JSString} (h : Redaction keep cut w s o) :
    (s = [] ∧ o = []) ∨
    (∃ c s' o', s = c :: s' ∧ o = c :: o' ∧ keep w (c :: s') ∧
      Redaction keep cut (isWordChar c) s' o') ∨
    (∃ m s' o', m ≠ [] ∧ s = m ++ s' ∧ o = promiseText ++ o' ∧ cut w m s' ∧
      Redaction keep cut (lastWord w m) s' o') := by
  cases h with
  | done => exact Or.inl ⟨rfl, rfl⟩
  | copy _ c s' o' hk hr => exact Or.inr (Or.inl ⟨c, s', o', rfl, rfl, hk, hr⟩)
  | replace _ m s' o' hm hc hr => exact Or.inr (Or.inr ⟨m, s', o', hm, rfl, rfl, hc, hr⟩)

theorem redaction_weaken {keep keep' : Bool → JSString → Prop}
    {cut cut' : Bool → JSString → JSString → Prop}
    (hk : ∀ w t, keep w t → keep' w t) (hc : ∀ w m t, cut w m t → cut' w m t)
    {w : Bool} {s o : JSString} (h : Redaction keep cut w s o) : Redaction keep' cut' w s o := by
  induction h with
  | done w => exact Redaction.done w
  | copy w c s o hkeep _ ih => exact Redaction.copy w c s o (hk _ _ hkeep) ih
  | replace w m s o hm hcut _ ih => exact Redaction.replace w m s o hm (hc _ _ _ hcut) ih

/-- What `replace` returns is a redaction of the text: characters are kept
where the expression does not match, and matches are cut. -/
theorem redaction_scan (r : RegExp) (hr : r.consumes = true) :
    ∀ (n : Nat) (s : JSString), s.length ≤ n → ∀ w,
      Redaction (fun w t => r.run (w, t) = []) (fun w m t => r.exec w (m ++ t) = some (m, t))
        w s (redactFrom r w s) := by
  intro n
  induction n with
  | zero =>
    intro s hn w
    have : s = [] := List.length_eq_zero.mp (by omega)
    subst this
    rw [redactFrom_nil r hr]
    exact Redaction.done w
  | succ n ih =>
    intro s hn w
    cases s with
    | nil =>
      rw [redactFrom_nil r hr]
      exact Redaction.done w
    | cons c cs =>
      cases hrun : r.exec w (c :: cs) with
      | none =>
        have h₁ := (exec_eq_none_iff r w _).mp hrun
        rw [redactFrom_none r w c cs h₁]
        exact Redaction.copy w c cs _ h₁ (ih cs (by simpa using hn) _)
      | some mr =>
        obtain ⟨m, rest⟩ := mr
        have hs := exec_some_split r w _ m rest hrun
        have hm := exec_some_ne_nil r hr w _ m rest hrun
        have hlen : rest.length ≤ n := by
          have := congrArg List.length hs
          simp only [List.length_cons, List.length_append] at this hn
          have : 0 < m.length := List.length_pos.mpr hm
          omega
        rw [redactFrom_some r hr w _ m rest hrun, hs]
        rw [hs] at hrun
        exact Redaction.replace w m rest _ hm hrun (ih rest hlen _)

/-- A redaction either keeps the whole text or keeps it up to a first cut. -/
theorem redaction_split {keep : Bool → JSString → Prop} {cut : Bool → JSString → JSString → Prop}
    {w : Bool} {s o : JSString} (h : Redaction keep cut w s o) :
    o = s ∨ ∃ p m s₂ o₂, s = p ++ (m ++ s₂) ∧ o = p ++ (promiseText ++ o₂) := by
  induction h with
  | done w => exact Or.inl rfl
  | copy w c s o _ _ ih =>
    rcases ih with h | ⟨p, m, s₂, o₂, hs, ho⟩
    · exact Or.inl (by rw [h])
    · exact Or.inr ⟨c :: p, m, s₂, o₂, by rw [hs]; rfl, by rw [ho]; rfl⟩
  | replace w m s o _ _ _ _ => exact Or.inr ⟨[], m, s, o, rfl, rfl⟩

/-- For an opaque expression without `\b`: a redaction that keeps characters
only where the expression does not match has no match. -/
theorem redaction_noHit (r : RegExp) (hr : Opaque r) (hwf : r.wordFree = true)
    {w : Bool} {s o : JSString}
    (h : Redaction (fun _ t => ∀ w', r.run (w', t) = []) (fun _ _ _ => True) w s o) :
    ∀ w', NoHit r w' o := by
  induction h with
  | done w => intro w'; exact run_nil_of_consumes r hr.consumes w'
  | copy w c s o hkeep hsub ih =>
    intro w'
    refine ⟨?_, ih _⟩
    rcases redaction_split hsub with h | ⟨p, m, s₂, o₂, hs, ho⟩
    · rw [h]; exact hkeep w'
    · have hb := run_barrier '[' ("object Promise]".toList ++ o₂) (by decide) r hr.left
        (w', c :: p)
      simp only [extendBy] at hb
      have hp : r.run (w', c :: p) = [] := by
        cases hq : r.run (w', c :: p) with
        | nil => rfl
        | cons q l =>
          have hmem := run_mono (m ++ s₂) r hwf (w', c :: p) q (by simp [hq])
          have hk := hkeep w'
          rw [hs] at hk
          simp only [extendBy, List.cons_append] at hmem
          rw [hk] at hmem
          simp at hmem
      rw [ho, promiseText_append]
      rw [List.cons_append] at hb
      rw [hb, hp]
      rfl
  | replace w m s o _ _ _ ih =>
    intro w'
    exact noHit_promise r hr o (ih false) w'

/-- A redaction of a text without a match of `r`, whatever was cut. -/
theorem redaction_of_noHit (r : RegExp) (hwf : r.wordFree = true)
    {keep : Bool → JSString → Prop} {cut : Bool → JSString → JSString → Prop}
    {w : Bool} {s o : JSString} (h : Redaction keep cut w s o) :
    (∀ w', NoHit r w' s) →
    Redaction (fun _ t => ∀ w', r.run (w', t) = []) (fun _ _ _ => True) w s o := by
  induction h with
  | done w => intro _; exact Redaction.done w
  | copy w c s o _ _ ih =>
    intro hno
    exact Redaction.copy w c s o (fun w' => (hno w').1)
      (ih (fun w' => noHit_irrelevant r hwf s _ w' (hno false).2))
  | replace w m s o hm _ _ ih =>
    intro hno
    exact Redaction.replace w m s o hm trivial
      (ih (fun w' => noHit_irrelevant r hwf s _ w' (noHit_suffix r m false s (hno false))))

/-! ## The phone pattern -/

theorem repeatN_cls_mem (p : Char → Bool) :
    ∀ (n : Nat) (w : Bool) (s : JSString) (q : Cursor),
      q ∈ repeatN (fun q => (RegExp.cls p).run q) n (w, s) →
      ∃ l, s = l ++ q.2 ∧ l.length = n ∧ (∀ c ∈ l, p c = true) ∧ q.1 = lastWord w l := by
  intro n
  induction n with
  | zero =>
    intro w s q hq
    simp only [repeatN, List.mem_singleton] at hq
    subst hq
    exact ⟨[], rfl, rfl, by simp, rfl⟩
  | succ n ih =>
    intro w s q hq
    simp only [repeatN, List.mem_flatMap] at hq
    obtain ⟨a, ha, hqa⟩ := hq
    cases s with
    | nil => simp [RegExp.run] at ha
    | cons c cs =>
      by_cases hc : p c = true
      · simp only [RegExp.run, hc, if_true, List.mem_singleton] at ha
        subst ha
        obtain ⟨l, hl, hlen, hall, hq1⟩ := ih _ _ q hqa
        refine ⟨c :: l, by rw [hl]; rfl, by simp [hlen], ?_, by rw [hq1]; rfl⟩
        intro x hx
        rcases List.mem_cons.mp hx with h | h
        · rw [h]; exact hc
        · exact hall x h
      · simp [RegExp.run, hc] at ha

theorem isWordChar_of_isDigit (c : Char) (h : isDigit c = true) : isWordChar c = true := by
  simp [isWordChar, h]

theorem lastWord_digits :
    ∀ (d : JSString) (w : Bool), d ≠ [] → (∀ c ∈ d, isDigit c = true) → lastWord w d = true := by
  intro d
  induction d with
  | nil => intro w h; exact absurd rfl h
  | cons c cs ih =>
    intro w _ hd
    cases cs with
    | nil => exact isWordChar_of_isDigit c (hd c (List.mem_cons_self _ _))
    | cons x xs =>
      exact ih (isWordChar c) (by simp) (fun y hy => hd y (List.mem_cons_of_mem _ hy))

theorem nextIsWord_digits (d rest : JSString) (hne : d ≠ []) (hd : ∀ c ∈ d, isDigit c = true) :
    nextIsWord (d ++ rest) = true := by
  cases d with
  | nil => exact absurd rfl hne
  | cons c cs => exact isWordChar_of_isDigit c (hd c (List.mem_cons_self _ _))

/-- Ten digits between two word boundaries: the one match of the phone
pattern at a position. -/
theorem phone_run_digits (d rest : JSString) (hl : d.length = 10)
    (hd : ∀ c ∈ d, isDigit c = true) (hr : nextIsWord rest = false) :
    phonePattern.run (false, d ++ rest) = [(true, rest)] := by
  have hne : d ≠ [] := by intro h; rw [h] at hl; simp at hl
  have h₁ := nextIsWord_digits d rest hne hd
  have h₂ := repeatN_cls isDigit d false rest hd
  rw [hl, lastWord_digits d false hne hd] at h₂
  simp [phonePattern, run_seq, run_wordBoundary, run_exactly, h₁, h₂, hr]

theorem phone_run_cases (w : Bool) (s : JSString) :
    phonePattern.run (w, s) = [] ∨
    (w = false ∧ ∃ d rest, s = d ++ rest ∧ d.length = 10 ∧ (∀ c ∈ d, isDigit c = true) ∧
      nextIsWord rest = false ∧ phonePattern.run (w, s) = [(true, rest)]) := by
  cases hrun : phonePattern.run (w, s) with
  | nil => exact Or.inl rfl
  | cons q l =>
    right
    have hq : q ∈ phonePattern.run (w, s) := by simp [hrun]
    simp only [phonePattern, run_seq, List.mem_flatMap, run_exactly] at hq
    obtain ⟨a, ha, b, hb, hqb⟩ := hq
    by_cases hwb : (w != nextIsWord s) = true
    · simp only [run_wordBoundary, hwb, if_true, List.mem_singleton] at ha
      subst ha
      obtain ⟨d, hs, hlen, hall, hb1⟩ := repeatN_cls_mem isDigit 10 w s b hb
      have hne : d ≠ [] := by intro h; rw [h] at hlen; simp at hlen
      obtain ⟨bw, bs⟩ := b
      simp only at hs hb1
      by_cases hwb' : (bw != nextIsWord bs) = true
      · rw [hb1, lastWord_digits d w hne hall] at hwb'
        have hn : nextIsWord bs = false := by simpa using hwb'
        have hw : w = false := by
          rw [hs, nextIsWord_digits d bs hne hall] at hwb
          simpa using hwb
        refine ⟨hw, d, bs, hs, hlen, hall, hn, ?_⟩
        rw [← hrun, hw, hs]
        exact phone_run_digits d bs hlen hall hn
      · simp [run_wordBoundary, hwb'] at hqb
    · simp [run_wordBoundary, hwb] at ha

theorem phone_exec_some (w : Bool) (t m rest : JSString)
    (h : phonePattern.exec w t = some (m, rest)) :
    w = false ∧ m.length = 10 ∧ (∀ c ∈ m, isDigit c = true) ∧ nextIsWord rest = false := by
  rcases phone_run_cases w t with h0 | ⟨hw, d, rest', hs, hlen, hall, hn, hrun⟩
  · rw [(exec_eq_none_iff _ w t).mpr h0] at h
    simp at h
  · have he : phonePattern.exec w (d ++ rest') = some (d, rest') :=
      exec_of_run_head _ _ _ _ _ _ (hs ▸ hrun)
    rw [hs, he] at h
    simp only [Option.some.injEq, Prod.mk.injEq] at h
    rw [← h.1, ← h.2]
    exact ⟨hw, hlen, hall, hn⟩

theorem phone_reject (w : Bool) (s : JSString) (h : nextIsWord s = false) :
    phonePattern.run (w, s) = [] := by
  rcases phone_run_cases w s with h0 | ⟨_, d, rest, hs, hlen, hall, _, _⟩
  · exact h0
  · have hne : d ≠ [] := by intro h; rw [h] at hlen; simp at hlen
    rw [hs, nextIsWord_digits d rest hne hall] at h
    simp at h

theorem phone_noHit_switch (o : JSString) (h : nextIsWord o = false) (w₁ w₂ : Bool)
    (hno : NoHit phonePattern w₁ o) : NoHit phonePattern w₂ o := by
  cases o with
  | nil => exact phone_reject w₂ [] rfl
  | cons c cs => exact ⟨phone_reject w₂ _ h, hno.2⟩

/-- A stretch of digits at the start of a redaction was kept as it is. -/
theorem redaction_digits {keep : Bool → JSString → Prop}
    {cut : Bool → JSString → JSString → Prop} :
    ∀ (k : Nat) (w : Bool) (s o : JSString), Redaction keep cut w s o → k ≤ o.length →
      (∀ c ∈ o.take k, isDigit c = true) →
      s.take k = o.take k ∧ k ≤ s.length ∧
        Redaction keep cut (lastWord w (o.take k)) (s.drop k) (o.drop k) := by
  intro k
  induction k with
  | zero => intro w s o h _ _; exact ⟨rfl, Nat.zero_le _, h⟩
  | succ k ih =>
    intro w s o h hk hd
    rcases redaction_inv h with ⟨_, ho⟩ | ⟨c, s', o', hs, ho, _, hsub⟩ |
      ⟨m, s', o', _, _, ho, _, _⟩
    · rw [ho] at hk; simp at hk
    · subst hs ho
      simp only [List.length_cons, Nat.add_le_add_iff_right] at hk
      have hd' : ∀ x ∈ o'.take k, isDigit x = true :=
        fun x hx => hd x (by simp [List.take_succ_cons, hx])
      obtain ⟨h₁, h₂, h₃⟩ := ih _ s' o' hsub hk hd'
      refine ⟨by simp [List.take_succ_cons, h₁], by simpa using h₂, ?_⟩
      simpa [List.take_succ_cons, lastWord] using h₃
    · exfalso
      have := hd '[' (by rw [ho]; simp [promiseText_append, List.take_succ_cons])
      exact absurd this (by decide)

/-- What `replace` returns for the phone pattern has no match of it. -/
theorem phone_redaction_noHit {w : Bool} {s o : JSString}
    (h : Redaction (fun w t => phonePattern.run (w, t) = [])
      (fun w m t => phonePattern.exec w (m ++ t) = some (m, t)) w s o) :
    NoHit phonePattern w o ∧ (nextIsWord s = false → nextIsWord o = false) := by
  induction h with
  | done w => exact ⟨phone_reject w [] rfl, fun h => h⟩
  | copy w c s o hkeep hsub ih =>
    refine ⟨⟨?_, ih.1⟩, fun h => h⟩
    rcases phone_run_cases w (c :: o) with h0 | ⟨hw, d, rest, hs, hlen, hall, hn, _⟩
    · exact h0
    · exfalso
      obtain ⟨d', rfl⟩ : ∃ d', d = c :: d' := by
        cases d with
        | nil => simp at hlen
        | cons x xs =>
          simp only [List.cons_append, List.cons.injEq] at hs
          exact ⟨xs, by rw [hs.1]⟩
      have ho : o = d' ++ rest := by simpa using hs
      have hlen' : d'.length = 9 := by simpa using hlen
      have hall' : ∀ x ∈ d', isDigit x = true := fun x hx => hall x (List.mem_cons_of_mem _ hx)
      have htake : o.take 9 = d' := by rw [ho, ← hlen']; exact List.take_left' rfl
      have hdrop : o.drop 9 = rest := by rw [ho, ← hlen']; exact List.drop_left' rfl
      obtain ⟨h₁, _, h₃⟩ := redaction_digits 9 _ s o hsub
        (by rw [ho]; simp [hlen']) (by rw [htake]; exact hall')
      have hne' : d' ≠ [] := by intro h; rw [h] at hlen'; simp at hlen'
      rw [htake, hdrop, lastWord_digits d' _ hne' hall'] at h₃
      rw [htake] at h₁
      have hnext : nextIsWord (s.drop 9) = false := by
        rcases redaction_inv h₃ with ⟨hs', _⟩ | ⟨x, s', o', hs', ho', _, _⟩ |
          ⟨m, s', o', _, _, _, hcut, _⟩
        · rw [hs']; rfl
        · rw [hs']
          rw [ho'] at hn
          exact hn
        · exact absurd (phone_exec_some _ _ _ _ hcut).1 (by decide)
      have hsplit : c :: s = (c :: d') ++ s.drop 9 := by
        rw [List.cons_append, ← h₁, List.take_append_drop]
      rw [hw, hsplit, phone_run_digits (c :: d') (s.drop 9) hlen hall hnext] at hkeep
      simp at hkeep
  | replace w m s o _ hcut _ ih =>
    have hn := (phone_exec_some _ _ _ _ hcut).2.2.2
    exact ⟨noHit_promise _ opaque_phone o (phone_noHit_switch o (ih.2 hn) _ false ih.1) w,
      fun _ => rfl⟩

/-! ## Running `anonymizeMessage` on its own result -/

theorem noHit_replaceFrom {σ : Type} (r : RegExp) (hr : r.consumes = true)
    (cb : JSString → σ → JSValue × σ) :
    ∀ (s : JSString) (w : Bool) (st : σ), NoHit r w s → replaceFrom r cb 0 w s st = (s, st) := by
  intro s
  induction s with
  | nil => intro w st _; exact replaceFrom_nil r hr cb 0 w st
  | cons c cs ih =>
    intro w st h
    rw [replaceFrom_none r cb w c cs st h.1, ih _ st h.2]

theorem redactFrom_noHit_self (r : RegExp) (hr : Opaque r) (hwf : r.wordFree = true)
    (s : JSString) (w w' : Bool) : NoHit r w' (redactFrom r w s) :=
  redaction_noHit r hr hwf
    (redaction_weaken (fun w₀ t h w₁ => run_nil_irrelevant r hwf w₀ w₁ t h)
      (fun _ _ _ _ => trivial) (redaction_scan r hr.consumes _ s (le_refl _) w)) w'

theorem redactFrom_noHit_other (r : RegExp) (hr : Opaque r) (hwf : r.wordFree = true)
    (r' : RegExp) (hr' : r'.consumes = true) (s : JSString) (hno : ∀ w, NoHit r w s)
    (w w' : Bool) : NoHit r w' (redactFrom r' w s) :=
  redaction_noHit r hr hwf
    (redaction_of_noHit r hwf (redaction_scan r' hr' _ s (le_refl _) w) hno) w'

theorem redactFrom_noHit_phone (s : JSString) (w : Bool) :
    NoHit phonePattern w (redactFrom phonePattern w s) :=
  (phone_redaction_noHit (redaction_scan phonePattern rfl _ s (le_refl _) w)).1

/-- No detector matches anywhere in the text `anonymizeMessage` returns. -/
theorem anonymized_noHit (message : JSString) :
    NoHit namePattern false (redact phonePattern (redact emailPattern (redact namePattern message))) ∧
    NoHit emailPattern false
      (redact phonePattern (redact emailPattern (redact namePattern message))) ∧
    NoHit phonePattern false
      (redact phonePattern (redact emailPattern (redact namePattern message))) := by
  have hn₁ : ∀ w, NoHit namePattern w (redact namePattern message) :=
    fun w => redactFrom_noHit_self _ opaque_name rfl message false w
  have hn₂ : ∀ w, NoHit namePattern w (redact emailPattern (redact namePattern message)) :=
    fun w => redactFrom_noHit_other _ opaque_name rfl emailPattern rfl _ hn₁ false w
  have hn₃ := redactFrom_noHit_other _ opaque_name rfl phonePattern rfl _ hn₂ false false
  have he₂ : ∀ w, NoHit emailPattern w (redact emailPattern (redact namePattern message)) :=
    fun w => redactFrom_noHit_self _ opaque_email rfl _ false w
  have he₃ := redactFrom_noHit_other _ opaque_email rfl phonePattern rfl _ he₂ false false
  exact ⟨hn₃, he₃, redactFrom_noHit_phone _ false⟩

/-- C8: `anonymizeMessage` returns a text, and run again on that text, against
any store, it returns the same text, issues no write and leaves the store as
it is, because no detector matches anywhere in a text it has returned. -/
theorem anonymize_idempotent (c c' : Collection) (message : JSString) :
    ∃ t, (anonymizeMessage c message).1 = .ok t ∧
      anonymizeMessage c' t = (.ok t, ⟨c', [], []⟩) ∧
      jsMatchAll namePattern t = [] ∧ jsMatchAll emailPattern t = [] ∧
      jsMatchAll phonePattern t = [] := by
  obtain ⟨hn, he, hp⟩ := anonymized_noHit message
  refine ⟨_, anonymizeMessage_text c message, ?_, noHit_matchFrom namePattern rfl _ _ hn,
    noHit_matchFrom emailPattern rfl _ _ he, noHit_matchFrom phonePattern rfl _ _ hp⟩
  have h₁ := fun (type : JSString) (e : Effects) =>
    noHit_replaceFrom namePattern rfl (anonymizeCallback type) _ false e hn
  have h₂ := fun (type : JSString) (e : Effects) =>
    noHit_replaceFrom emailPattern rfl (anonymizeCallback type) _ false e he
  have h₃ := fun (type : JSString) (e : Effects) =>
    noHit_replaceFrom phonePattern rfl (anonymizeCallback type) _ false e hp
  simp only [anonymizeMessage, PII_PATTERNS, List.foldl_cons, List.foldl_nil, anonymizeStep,
    jsReplaceFn, awaitValue, h₁, h₂, h₃]

/-! ## Evaluations at concrete inputs -/

/-- C1 (round trip), evaluated at the example of the specification: for the
message `Hola, soy Juan Perez, mi correo es juan@example.com` the anonymizer
returns the message with `[object Promise]` in place of the name and of the
address (the callback handed to `replace` is `async`, and `replace` inserts
its promise converted to a string); the deanonymizer finds no token in that
text and returns it as it is; the result is not the original message. -/
theorem roundTrip_broken_at_example :
    (anonymizeMessage ⟨[], true⟩
        "Hola, soy Juan Perez, mi correo es juan@example.com".toList).1
      = .ok "Hola, soy [object Promise], mi correo es [object Promise]".toList ∧
    deanonymizeMessage
        (anonymizeMessage ⟨[], true⟩
          "Hola, soy Juan Perez, mi correo es juan@example.com".toList).2.collection
        "Hola, soy [object Promise], mi correo es [object Promise]".toList
      = .ok "Hola, soy [object Promise], mi correo es [object Promise]".toList ∧
    "Hola, soy [object Promise], mi correo es [object Promise]".toList
      ≠ "Hola, soy Juan Perez, mi correo es juan@example.com".toList :=
  ⟨rfl, rfl, by decide⟩

/-- C2 (text returned by the anonymizer), evaluated at a message with one
name and one e-mail address: both writes are issued with the tokens of the
two matches, but the text returned holds `[object Promise]` where the claim
expects each token, and the scan for tokens finds nothing in it. -/
theorem anonymize_emits_no_token :
    (anonymizeMessage ⟨[], true⟩ "Juan Perez <juan@example.com>".toList).1
      = .ok "[object Promise] <[object Promise]>".toList ∧
    (anonymizeMessage ⟨[], true⟩ "Juan Perez <juan@example.com>".toList).2.issued
      = [⟨"NAME_f640a508c7c9".toList, "Juan Perez".toList⟩,
         ⟨"EMAIL_a729ef7eaf48".toList, "juan@example.com".toList⟩] ∧
    jsMatchAll tokenPattern "[object Promise] <[object Promise]>".toList = [] :=
  ⟨rfl, rfl, rfl⟩

/-- C5 (an unresolved token is left as it is), evaluated at the example of
the claim: the scan finds `ANAME_0123456789ab` and `NAME_0123456789ab`, the
store knows the second only, and the replacement of the second, made at its
first occurrence as a substring, lands inside the first: the unresolved token
is altered and the resolved one stays. -/
theorem deanonymize_alters_unresolved_token :
    jsMatchAll tokenPattern "ANAME_0123456789ab NAME_0123456789ab".toList
      = ["ANAME_0123456789ab".toList, "NAME_0123456789ab".toList] ∧
    Collection.findOne ⟨[⟨"NAME_0123456789ab".toList, "Juan Perez".toList⟩], true⟩
        "ANAME_0123456789ab".toList = .ok none ∧
    deanonymizeMessage ⟨[⟨"NAME_0123456789ab".toList, "Juan Perez".toList⟩], true⟩
        "ANAME_0123456789ab NAME_0123456789ab".toList
      = .ok "AJuan Perez NAME_0123456789ab".toList :=
  ⟨rfl, rfl, rfl⟩

/-- C7 (failure of the store write), evaluated at `Juan Perez` against a
store that does not answer: the write is issued and rejected, its rejection is
awaited by nothing, and `anonymizeMessage` returns a text all the same. -/
theorem anonymize_returns_despite_failed_write :
    anonymizeMessage ⟨[], false⟩ "Juan Perez".toList
      = (.ok "[object Promise]".toList,
         ⟨⟨[], false⟩, [⟨"NAME_f640a508c7c9".toList, "Juan Perez".toList⟩],
          [storeUnavailable]⟩) :=
  rfl

theorem deanonymizeLoop_unknown (c : Collection) (tokens : List JSString) (message : JSString)
    (h : ∀ t ∈ tokens, c.findOne t = .ok none) :
    deanonymizeLoop c tokens message = .ok message := by
  induction tokens with
  | nil => rfl
  | cons t ts ih =>
    have ht := h t (List.mem_cons_self _ _)
    simp only [deanonymizeLoop, deanonymizeStep, ht]
    exact ih (fun u hu => h u (List.mem_cons_of_mem _ hu))

/-- C6: when the lookup of every token that the scan finds in the text
answers that there is no record, `deanonymizeMessage` does not fail and
returns the text unchanged; in particular it does so for every text against
the empty store. -/
theorem deanonymize_unknown_tokens (c : Collection) (text : JSString) :
    ((∀ t ∈ jsMatchAll tokenPattern text, c.findOne t = .ok none) →
      deanonymizeMessage c text = .ok text) ∧
    deanonymizeMessage ⟨[], true⟩ text = .ok text :=
  ⟨deanonymizeLoop_unknown c _ text, deanonymizeLoop_unknown ⟨[], true⟩ _ text (fun _ _ => rfl)⟩

/-- C6 at `NAME_deadbeef0000 says hi` against the empty store: the scan
finds the token, the store has no record of it, the text comes back as it
is. -/
theorem deanonymize_unknown_tokens_witness :
    jsMatchAll tokenPattern "NAME_deadbeef0000 says hi".toList = ["NAME_deadbeef0000".toList] ∧
    (∀ t ∈ jsMatchAll tokenPattern "NAME_deadbeef0000 says hi".toList,
      Collection.findOne ⟨[], true⟩ t = .ok none) ∧
    deanonymizeMessage ⟨[], true⟩ "NAME_deadbeef0000 says hi".toList
      = .ok "NAME_deadbeef0000 says hi".toList :=
  ⟨rfl, fun _ _ => rfl,
   (deanonymize_unknown_tokens ⟨[], true⟩ "NAME_deadbeef0000 says hi".toList).1
     (fun _ _ => rfl)⟩

end PrivacyVault
